import Mathlib

/-!
Verification of the Dependency Discovery & Update Engine
(geniusdynamics/updater).  Go strings are modelled as `List Char`;
machine integers as unbounded `Int` (the scanned version components are
far below overflow in every input considered here).  Network-bound
functions are modelled by passing the sequence of registry responses
(or a response oracle) as an explicit argument.
-/

namespace Updater

/-- A parsed three-component version, the `maj, min, pat` triple of
`parseSemver` in `internal/images/updates.go`. -/
structure Sem3 where
  major : Int
  minor : Int
  patch : Int
deriving DecidableEq

/-- Characters skipped by a `%d` verb of `fmt.Sscanf` before the number
(space-like characters on the same line). -/
def isScanSpace (c : Char) : Bool :=
  c = ' ' ∨ c = '\t'

/-- Numeric value of a digit run (most significant first). -/
def digitsVal (ds : List Char) : Nat :=
  ds.foldl (fun n c => 10 * n + (c.toNat - 48)) 0

/-- Digit-run helper for `scanIntFrom`: the value and the rest, `none`
when the input does not start with a digit. -/
def digitsFrom (sign : Int) (s : List Char) : Option (Int × List Char) :=
  if s.takeWhile Char.isDigit = [] then none
  else some (sign * (digitsVal (s.takeWhile Char.isDigit) : Int),
    s.drop (s.takeWhile Char.isDigit).length)

/-- One `%d` item of `fmt.Sscanf`: skip spaces, optional sign, one or
more digits; returns the value and the unconsumed rest, or `none` when
no digit is found. -/
def scanIntFrom (s : List Char) : Option (Int × List Char) :=
  match s.dropWhile isScanSpace with
  | [] => none
  | c :: r =>
    if c = '-' then digitsFrom (-1) r
    else if c = '+' then digitsFrom 1 r
    else digitsFrom 1 (c :: r)

/-- `fmt.Sscanf(v, "%d.%d.%d", &maj, &min, &pat)`: the values written so
far and the number of items successfully scanned.  Items after the first
failure keep their zero value; input left over after the third item is
ignored (Sscanf does not require consuming the whole string). -/
def sscanfSemver (v : List Char) : Sem3 × Nat :=
  match scanIntFrom v with
  | none => (⟨0, 0, 0⟩, 0)
  | some (a, r1) =>
    match r1 with
    | '.' :: r2 =>
      match scanIntFrom r2 with
      | none => (⟨a, 0, 0⟩, 1)
      | some (b, r3) =>
        match r3 with
        | '.' :: r4 =>
          match scanIntFrom r4 with
          | none => (⟨a, b, 0⟩, 2)
          | some (c, _) => (⟨a, b, c⟩, 3)
        | _ => (⟨a, b, 0⟩, 2)
    | _ => (⟨a, 0, 0⟩, 1)

/-- The triple left in the variables by `fmt.Sscanf(v, "%d.%d.%d", ...)`
whether or not scanning completed — `compareSemver` in the source ignores
the error return of `Sscanf` and uses these values as they stand. -/
def toTriple (v : List Char) : Sem3 :=
  (sscanfSemver v).1

/-- `parseSemver` of `updates.go`: succeeds exactly when all three items
scanned (`err == nil`, which for `Sscanf` means three items were read;
trailing unconsumed text is not an error). -/
def parseSemver (v : List Char) : Option Sem3 :=
  if (sscanfSemver v).2 = 3 then some (sscanfSemver v).1 else none

/-- `greater` of `updates.go`: strict lexicographic comparison of two
triples. -/
def greater (x y : Sem3) : Bool :=
  if x.major ≠ y.major then decide (x.major > y.major)
  else if x.minor ≠ y.minor then decide (x.minor > y.minor)
  else decide (x.patch > y.patch)

/-- `compareSemver` of `updates.go`: 1 / -1 / 0 on the partially scanned
triples (scan errors are ignored there, unscanned components read 0). -/
def compareSemver (v1 v2 : List Char) : Int :=
  let t1 := toTriple v1
  let t2 := toTriple v2
  if t1.major ≠ t2.major then (if t1.major > t2.major then 1 else -1)
  else if t1.minor ≠ t2.minor then (if t1.minor > t2.minor then 1 else -1)
  else if t1.patch ≠ t2.patch then (if t1.patch > t2.patch then 1 else -1)
  else 0

/-- `Tag` of `updates.go`: raw tag name and the (possibly empty) parsed
version string. -/
structure Tag where
  Name : List Char
  Version : List Char
deriving DecidableEq

/-- Match `\d+\.\d+\.\d+` anchored at the start of `t`, returning the
matched text.  Each `\d+` is a maximal digit run (no backtracking is
possible since `.` is not a digit). -/
def matchDDD (t : List Char) : Option (List Char) :=
  if t.takeWhile Char.isDigit = [] then none else
  match t.drop (t.takeWhile Char.isDigit).length with
  | '.' :: t2 =>
    if t2.takeWhile Char.isDigit = [] then none else
    match t2.drop (t2.takeWhile Char.isDigit).length with
    | '.' :: t3 =>
      if t3.takeWhile Char.isDigit = [] then none else
      some (t.takeWhile Char.isDigit ++
        '.' :: (t2.takeWhile Char.isDigit ++ '.' :: t3.takeWhile Char.isDigit))
    | _ => none
  | _ => none

/-- Attempt to match the regular expression `v?(\d+\.\d+\.\d+)` anchored
at the start of `s`, returning the capture group (a leading `v` cannot
begin a digit run, so the two alternatives of `v?` never both apply). -/
def matchSemverAt (s : List Char) : Option (List Char) :=
  match s with
  | 'v' :: rest => matchDDD rest
  | _ => matchDDD s

/-- `parseVersion` (and its duplicate `extractVersion`) of `updates.go`:
leftmost match of `v?(\d+\.\d+\.\d+)` in the tag, capture group returned,
empty when there is no match. -/
def parseVersion : List Char → List Char
  | [] => []
  | c :: rest =>
    match matchSemverAt (c :: rest) with
    | some g => g
    | none => parseVersion rest

/-- `newTag` of `updates.go`. -/
def newTag (name : List Char) : Tag :=
  ⟨name, parseVersion name⟩

/-- The loop body of `FindNearestUpgrade`: walk the tags, keep the
smallest parseable version still strictly greater than `c`.  When a
candidate is compared against the current best, the source re-parses
`best.Version` discarding the error flag, i.e. it uses the partial
triple `toTriple best.Version`. -/
def fnuFold (c : Sem3) : List Tag → Option Tag → Option Tag
  | [], best => best
  | t :: rest, best =>
    match parseSemver t.Version with
    | none => fnuFold c rest best
    | some p =>
      if greater p c then
        match best with
        | none => fnuFold c rest (some t)
        | some b =>
          if greater (toTriple b.Version) p then fnuFold c rest (some t)
          else fnuFold c rest (some b)
      else fnuFold c rest best

/-- `FindNearestUpgrade` of `updates.go`. -/
def FindNearestUpgrade (current : List Char) (tags : List Tag) : Option Tag :=
  match parseSemver current with
  | none => none
  | some c => fnuFold c tags none

/-- Split a character list at every occurrence of `sep` (like
`strings.Split` for a one-character separator: never returns an empty
list of parts). -/
def splitOnChar (sep : Char) : List Char → List (List Char)
  | [] => [[]]
  | c :: rest =>
    let ps := splitOnChar sep rest
    if c = sep then [] :: ps
    else
      match ps with
      | [] => [[c]]
      | p :: ps' => (c :: p) :: ps'

/-- The canonical map key of `filterLatestVersion`:
`versionParts := strings.Split(t.Version, "-"); v := versionParts[len-1]`. -/
def canonKey (v : List Char) : List Char :=
  (splitOnChar '-' v).getLastD v

/-- Association-list lookup (Go map read). -/
def lookupA {β : Type} : List (List Char × β) → List Char → Option β
  | [], _ => none
  | (k, v) :: rest, q => if q = k then some v else lookupA rest q

/-- Association-list insert with overwrite (Go map write: last write for
a key wins; we keep the first-insertion position, which only affects
iteration order — unspecified for a Go map anyway). -/
def insertA {β : Type} : List (List Char × β) → List Char → β → List (List Char × β)
  | [], k, v => [(k, v)]
  | (k', v') :: rest, k, v =>
    if k' = k then (k', v) :: rest else (k', v') :: insertA rest k v

/-- The `versionMap` construction loop of `filterLatestVersion`: skip
tags with an empty version, key each remaining tag by `canonKey`. -/
def buildVersionMap : List Tag → List (List Char × Tag) → List (List Char × Tag)
  | [], m => m
  | t :: rest, m =>
    if t.Version = [] then buildVersionMap rest m
    else buildVersionMap rest (insertA m (canonKey t.Version) t)

/-- `versions[0]` after the descending `sort.Slice` by `compareSemver`:
an element maximal under `compareSemver`.  (`sort.Slice` is unstable and
Go map iteration order is unspecified, so which of several
`compareSemver`-equal keys ends up first is arbitrary; we deterministically
keep the earliest-inserted maximum, which satisfies the same
specification.) -/
def pickMaxKey : List (List Char) → Option (List Char)
  | [] => none
  | k :: rest => some (rest.foldl (fun acc x => if compareSemver x acc > 0 then x else acc) k)

/-- `filterLatestVersion` of `updates.go`. -/
def filterLatestVersion (tags : List Tag) : List Tag :=
  let m := buildVersionMap tags []
  match pickMaxKey (m.map Prod.fst) with
  | none => []
  | some k =>
    match lookupA m k with
    | some t => [t]
    | none => []

/-- `GetImageUpdates` for the docker.io registry, network made explicit:
`pages` is the sequence of result-name lists returned by the paginated
Docker Hub endpoint as the loop in `getDockerHubTags` follows the `next`
cursor until it is absent.  Each name is tagged with its parsed version
exactly as in the loop body. -/
def getDockerHubTags : List (List (List Char)) → List Tag
  | [] => []
  | page :: rest => page.map newTag ++ getDockerHubTags rest

/-- `GetImageUpdates` of `updates.go` (docker.io path): fetch all pages,
then return `filterLatestVersion` of the accumulated tags. -/
def GetImageUpdates (pages : List (List (List Char))) : List Tag :=
  filterLatestVersion (getDockerHubTags pages)

/-- Index of the first (leftmost) occurrence of `pat` in `s`, the
search that `strings.Replace` repeats. -/
def findOcc (pat : List Char) : List Char → Option Nat
  | [] => if pat.isPrefixOf [] then some 0 else none
  | c :: rest =>
    if pat.isPrefixOf (c :: rest) then some 0
    else (findOcc pat rest).map (· + 1)

/-- `strings.Contains`-style test expressed through `findOcc`. -/
def containsSeg (pat s : List Char) : Bool :=
  (findOcc pat s).isSome

/-- Fueled worker for `strings.ReplaceAll`: replace the leftmost
occurrence and continue after it.  The fuel only bounds the recursion;
`s.length` steps always suffice for a non-empty pattern since every step
consumes at least one character. -/
def replaceAllF : Nat → List Char → List Char → List Char → List Char
  | 0, _, _, s => s
  | fuel + 1, pat, rep, s =>
    match findOcc pat s with
    | none => s
    | some i => s.take i ++ rep ++ replaceAllF fuel pat rep (s.drop (i + pat.length))

/-- `strings.ReplaceAll(s, pat, rep)` for a non-empty pattern (every
pattern built by `ApplyUpdate` contains a `=` or `:` character, so the
empty-pattern insertion behaviour of the Go function is unreachable and
modelled as the identity). -/
def replaceAll (pat rep s : List Char) : List Char :=
  if pat = [] then s else replaceAllF s.length pat rep s

/-- `Dependency` of `internal/updater/types` (unnamed part): one
discovered version declaration. -/
structure Dependency where
  Name : List Char
  CurrentVersion : List Char
  LatestVersion : List Char
  File : List Char
  UpdaterName : List Char
deriving DecidableEq

/-- The double-quote character (written via its code point to keep the
source free of quote-character literals). -/
def dquote : Char := Char.ofNat 34

/-- `fmt.Sprintf("%s=\x22%s\x22", dep.Name, dep.CurrentVersion)` —
the quoted-assignment pattern of `ApplyUpdate`. -/
def oldPattern (d : Dependency) : List Char :=
  d.Name ++ '=' :: dquote :: d.CurrentVersion ++ [dquote]

/-- The quoted-assignment replacement of `ApplyUpdate`. -/
def newPattern (d : Dependency) : List Char :=
  d.Name ++ '=' :: dquote :: d.LatestVersion ++ [dquote]

/-- `fmt.Sprintf("%s:%s", dep.Name, dep.CurrentVersion)` — the
registry-tag pattern of `ApplyUpdate`. -/
def oldImagePattern (d : Dependency) : List Char :=
  d.Name ++ ':' :: d.CurrentVersion

/-- The registry-tag replacement of `ApplyUpdate`. -/
def newImagePattern (d : Dependency) : List Char :=
  d.Name ++ ':' :: d.LatestVersion

/-- The pure content transformation of `ApplyUpdate` in
`internal/updater/docker.go`: replace the quoted-assignment pattern
everywhere, then the registry-tag pattern everywhere. -/
def applyContent (d : Dependency) (content : List Char) : List Char :=
  replaceAll (oldImagePattern d) (newImagePattern d)
    (replaceAll (oldPattern d) (newPattern d) content)

/-- A file on disk: its content and its permission bits. -/
structure FileState where
  content : List Char
  mode : Nat
deriving DecidableEq

/-- The file system visible to the applier: an association of paths to
file states. -/
def Fs : Type := List (List Char × FileState)

instance : DecidableEq Fs := by
  unfold Fs
  infer_instance

/-- `os.ReadFile`. -/
def lookupFs : Fs → List Char → Option FileState
  | [], _ => none
  | (p, f) :: rest, q => if q = p then some f else lookupFs rest q

/-- `os.WriteFile(path, content, perm)`: an existing file is truncated
and rewritten without touching its permission bits (`perm` applies only
when the file is created). -/
def writeFileFs : Fs → List Char → List Char → Nat → Fs
  | [], p, c, perm => [(p, ⟨c, perm⟩)]
  | (p', f) :: rest, p, c, perm =>
    if p' = p then (p', ⟨c, f.mode⟩) :: rest
    else (p', f) :: writeFileFs rest p c perm

/-- `ApplyUpdate` of `docker.go`: read the file (`none` when it is
missing — the read error path), rewrite both patterns, write back with
permission argument 0644. -/
def ApplyUpdate (d : Dependency) (fs : Fs) : Option Fs :=
  match lookupFs fs d.File with
  | none => none
  | some f => some (writeFileFs fs d.File (applyContent d f.content) 420)

/-- Whitespace for `strings.TrimSpace` and for the `\s` class of the
image regular expression. -/
def isWsChar (c : Char) : Bool :=
  c = ' ' ∨ c = '\t' ∨ c = '\n' ∨ c = '\x0b' ∨ c = '\x0c' ∨ c = '\r'

/-- `strings.TrimSpace`. -/
def trimWs (s : List Char) : List Char :=
  ((s.dropWhile isWsChar).reverse.dropWhile isWsChar).reverse

/-- The lines delivered by `bufio.Scanner`: split on newline, dropping a
trailing carriage return from each line. -/
def dropCR (l : List Char) : List Char :=
  if l.getLast? = some '\r' then l.dropLast else l

/-- The lines of the scanned file content. -/
def splitLines (content : List Char) : List (List Char) :=
  (splitOnChar '\n' content).map dropCR

/-- The lines `scanBuildImagesFile` actually processes: it skips a line
whose trimmed form is empty or starts with `#`. -/
def keepLine (l : List Char) : Bool :=
  ¬ (trimWs l = [] ∨ (trimWs l).head? = some '#')

/-- The kept lines of the file content. -/
def keptLines (content : List Char) : List (List Char) :=
  (splitLines content).filter keepLine

/-- The `\w` class of the version-variable regular expression. -/
def isWordChar (c : Char) : Bool :=
  c.isAlphanum ∨ c = '_'

/-- Attempt to match `(\w+)_version=\x22([^\x22]+)\x22` anchored at a
position: the greedy `\w+` forces the maximal word run here to end in
`_version` (the character after the run is `=`, not a word character),
so the capture is that run minus its `_version` suffix. -/
def matchVersionAt (s : List Char) : Option (List Char × List Char) :=
  let run := s.takeWhile isWordChar
  if 9 ≤ run.length ∧ "_version".toList.isSuffixOf run then
    match s.drop run.length with
    | '=' :: c :: r2 =>
      if c = dquote then
        let val := r2.takeWhile (fun x => ¬ x = dquote)
        if ¬ val = [] ∧ (r2.drop val.length).head? = some dquote then
          some (run.take (run.length - 8), val)
        else none
      else none
    | _ => none
  else none

/-- `versionPattern.FindStringSubmatch(line)`: the leftmost match of the
version-variable pattern in the line (a match starting inside a word run
exists only if one starting at the run's head does, so scanning position
by position returns the same leftmost match as the regexp engine). -/
def versionLineMatch : List Char → Option (List Char × List Char)
  | [] => none
  | c :: rest =>
    match matchVersionAt (c :: rest) with
    | some m => some m
    | none => versionLineMatch rest

/-- Characters allowed in the repository group `[^:\s\x22]+` of the
image regular expression. -/
def isRepoChar (c : Char) : Bool :=
  ¬ (c = ':' ∨ isWsChar c ∨ c = dquote)

/-- Characters allowed in the tag group `[^\s\x22\$]+` of the image
regular expression — note `$` is excluded anywhere in the tag. -/
def isTagChar (c : Char) : Bool :=
  ¬ (isWsChar c ∨ c = dquote ∨ c = '$')

/-- Attempt to match `docker\.io/([^:\s\x22]+):([^\s\x22\$]+)` anchored
at a position, returning the two groups and the matched length. -/
def tryImageAt (s : List Char) : Option (List Char × List Char × Nat) :=
  if "docker.io/".toList.isPrefixOf s then
    if (s.drop 10).takeWhile isRepoChar = [] then none else
    match (s.drop 10).drop ((s.drop 10).takeWhile isRepoChar).length with
    | ':' :: r3 =>
      if r3.takeWhile isTagChar = [] then none
      else some ((s.drop 10).takeWhile isRepoChar, r3.takeWhile isTagChar,
        10 + ((s.drop 10).takeWhile isRepoChar).length + 1 +
          (r3.takeWhile isTagChar).length)
    | _ => none
  else none

/-- Fueled scan for `imagePattern.FindAllStringSubmatch(line, -1)`:
leftmost non-overlapping matches; after a match the search resumes past
it, after a failed position it advances one character.  One character is
consumed per step, so `line.length` fuel always suffices. -/
def imageMatchesF : Nat → List Char → List (List Char × List Char)
  | 0, _ => []
  | fuel + 1, s =>
    match s with
    | [] => []
    | c :: rest =>
      match tryImageAt (c :: rest) with
      | some (name, tag, len) => (name, tag) :: imageMatchesF fuel ((c :: rest).drop len)
      | none => imageMatchesF fuel rest

/-- All image-reference matches of a line. -/
def imageLineMatches (line : List Char) : List (List Char × List Char) :=
  imageMatchesF line.length line

/-- The registry oracle: for an image name, `some latest` models a
successful `getLatestDockerTag` call and `none` models any of its error
paths (network failure, non-200 status, unparsable body, empty result
list). -/
def Oracle : Type := List Char → Option (List Char)

/-- The `knownApps` table of `getLatestVersionForApp`. -/
def knownApps : List (List Char × List Char) :=
  [ ("penpot".toList, "penpotapp/frontend".toList)
  , ("nextcloud".toList, "nextcloud".toList)
  , ("postgres".toList, "postgres".toList)
  , ("redis".toList, "redis".toList)
  , ("mariadb".toList, "mariadb".toList) ]

/-- `getLatestVersionForApp` combined with its caller's fallback: a
known app asks the registry and falls back to the current version on
error; an unknown app returns the current version directly. -/
def resolveApp (o : Oracle) (app cur : List Char) : List Char :=
  match lookupA knownApps app with
  | some img =>
    match o img with
    | some v => v
    | none => cur
  | none => cur

/-- `getLatestDockerTag` combined with its caller's fallback for image
references. -/
def resolveImage (o : Oracle) (name tag : List Char) : List Char :=
  match o name with
  | some v => v
  | none => tag

/-- The version-variable dependency a kept line contributes (the first
`versionPattern` match only, as `FindStringSubmatch` returns one). -/
def versionDeps (path : List Char) (o : Oracle) (line : List Char) : List Dependency :=
  match versionLineMatch line with
  | none => []
  | some (app, cur) =>
    [ { Name := app ++ "_version".toList
      , CurrentVersion := cur
      , LatestVersion := resolveApp o app cur
      , File := path
      , UpdaterName := "docker".toList } ]

/-- The dependency built from one image-reference match; a tag that
still starts with the `$` sigil is skipped (the source's explicit
`strings.HasPrefix(currentVersion, "$")` check — in fact the tag group
of the regular expression already excludes `$`). -/
def imageDepOf (path : List Char) (o : Oracle) (m : List Char × List Char) :
    Option Dependency :=
  if m.2.head? = some '$' then none
  else some
    { Name := m.1
    , CurrentVersion := m.2
    , LatestVersion := resolveImage o m.1 m.2
    , File := path
    , UpdaterName := "docker".toList }

/-- The image-reference dependencies a kept line contributes. -/
def imageDeps (path : List Char) (o : Oracle) (line : List Char) : List Dependency :=
  (imageLineMatches line).filterMap (imageDepOf path o)

/-- One kept line's contribution, in source order: the version-variable
match first, then the image references. -/
def lineDeps (path : List Char) (o : Oracle) (line : List Char) : List Dependency :=
  versionDeps path o line ++ imageDeps path o line

/-- `scanBuildImagesFile` of `docker.go` with the file content and the
registry responses made explicit: walk the kept lines and collect each
line's dependencies. -/
def scanBuildImagesFile (path : List Char) (content : List Char) (o : Oracle) : List Dependency :=
  ((keptLines content).map (lineDeps path o)).flatten

/-- The outcome of the version-control collaborator calls made by
`UpdaterService.UpdateRepository`: whether each call would succeed. -/
structure GitEnv where
  currentBranchOk : Bool
  createBranchOk : Bool
  commitOk : Bool
  pushOk : Bool

/-- The observable outcome of one `UpdateRepository` run: the `success`
flag and `message` of the returned `UpdateResult`, the file system
afterwards, and whether branch creation, commit and push were attempted. -/
structure RunOutcome where
  success : Bool
  message : List Char
  fs : Fs
  branchAttempted : Bool
  commitAttempted : Bool
  pushAttempted : Bool
deriving DecidableEq

/-- The selection filter of `UpdateRepository`: with no explicit
selection every dependency with a newer version, otherwise the selected
ones among those (the inner loop with `break` adds a dependency at most
once, i.e. it is a membership test). -/
def depsToUpdate (deps : List Dependency) (selected : List (List Char)) : List Dependency :=
  if selected = [] then
    deps.filter (fun d => ¬ d.CurrentVersion = d.LatestVersion)
  else
    deps.filter (fun d => selected.contains d.Name ∧ ¬ d.CurrentVersion = d.LatestVersion)

/-- The sequential apply loop of `UpdateRepository`: stop at the first
`ApplyUpdate` failure, returning the failing dependency together with
the file system as already modified by the preceding applies. -/
def applyLoop : List Dependency → Fs → Except (Dependency × Fs) Fs
  | [], fs => .ok fs
  | d :: rest, fs =>
    match ApplyUpdate d fs with
    | none => .error (d, fs)
    | some fs' => applyLoop rest fs'

/-- The file system after the successful applies of a dependency list,
each one through `ApplyUpdate` (a failing apply leaves the file system
as it stands, matching where `applyLoop` stops). -/
def applyAllS : List Dependency → Fs → Fs
  | [], fs => fs
  | d :: rest, fs => applyAllS rest ((ApplyUpdate d fs).getD fs)

/-- The scan-determined projection of a dependency: everything except
the network-resolved `LatestVersion`. -/
def depKey (d : Dependency) : List Char × List Char × List Char × List Char :=
  (d.Name, d.CurrentVersion, d.File, d.UpdaterName)

/-- `fmt.Sprintf("Failed to apply update for %s: %v", dep.Name, err)`
with the read error of `ApplyUpdate` rendered as the failing path. -/
def applyFailMsg (d : Dependency) : List Char :=
  "Failed to apply update for ".toList ++ d.Name ++
    ": failed to read file ".toList ++ d.File

/-- `UpdaterService.UpdateRepository` (unnamed service part) after the
scan, with the scanned dependencies, the selection, the file system and
the collaborator outcomes as explicit inputs.  Mirrors the source's
sequence: current-branch check, selection filter, nothing-to-update
short circuit, branch creation, sequential applies, commit, push. -/
def UpdateRepository (deps : List Dependency) (selected : List (List Char))
    (fs : Fs) (git : GitEnv) : RunOutcome :=
  if ¬ git.currentBranchOk then
    ⟨false, "Failed to get current branch".toList, fs, false, false, false⟩
  else
    match depsToUpdate deps selected with
    | [] => ⟨true, "No dependencies need updating".toList, fs, false, false, false⟩
    | d0 :: rest =>
      if ¬ git.createBranchOk then
        ⟨false, "Failed to create update branch".toList, fs, true, false, false⟩
      else
        match applyLoop (d0 :: rest) fs with
        | .error (d, fs') => ⟨false, applyFailMsg d, fs', true, false, false⟩
        | .ok fs' =>
          if ¬ git.commitOk then
            ⟨false, "Failed to commit changes".toList, fs', true, true, false⟩
          else if ¬ git.pushOk then
            ⟨false, "Failed to push branch".toList, fs', true, true, true⟩
          else
            ⟨true, "Updated dependencies and pushed".toList, fs', true, true, true⟩

/-! ### Ordering facts about `greater` and `compareSemver` -/

theorem greater_iff (x y : Sem3) :
    greater x y = true ↔
      (y.major < x.major ∨ (x.major = y.major ∧
        (y.minor < x.minor ∨ (x.minor = y.minor ∧ y.patch < x.patch)))) := by
  unfold greater
  split_ifs with h1 h2 <;> simp only [decide_eq_true_eq] <;> omega

theorem greater_eq_false_iff (x y : Sem3) :
    greater x y = false ↔
      (x.major < y.major ∨ (x.major = y.major ∧
        (x.minor < y.minor ∨ (x.minor = y.minor ∧ x.patch ≤ y.patch)))) := by
  rw [← Bool.not_eq_true, greater_iff]
  omega

theorem greater_irrefl (x : Sem3) : greater x x = false := by
  rw [greater_eq_false_iff]
  omega

theorem greater_trans {x y z : Sem3} (h1 : greater x y = true)
    (h2 : greater y z = true) : greater x z = true := by
  rw [greater_iff] at *
  omega

theorem greater_false_trans {x y z : Sem3} (h1 : greater x y = false)
    (h2 : greater y z = false) : greater x z = false := by
  rw [greater_eq_false_iff] at *
  omega

theorem greater_asymm {x y : Sem3} (h : greater x y = true) :
    greater y x = false := by
  rw [greater_iff] at h
  rw [greater_eq_false_iff]
  omega

theorem compareSemver_pos_iff (a b : List Char) :
    compareSemver a b > 0 ↔ greater (toTriple a) (toTriple b) = true := by
  unfold compareSemver greater
  split_ifs <;> simp only [decide_eq_true_eq] <;> omega

theorem compareSemver_nonpos_iff (a b : List Char) :
    compareSemver a b ≤ 0 ↔ greater (toTriple a) (toTriple b) = false := by
  rw [← Bool.not_eq_true, ← compareSemver_pos_iff]
  omega

theorem compareSemver_nonpos_trans {a b c : List Char}
    (h1 : compareSemver a b ≤ 0) (h2 : compareSemver b c ≤ 0) :
    compareSemver a c ≤ 0 := by
  rw [compareSemver_nonpos_iff] at *
  exact greater_false_trans h1 h2

theorem compareSemver_nonpos_of_pos {a b : List Char}
    (h : compareSemver a b > 0) : compareSemver b a ≤ 0 := by
  rw [compareSemver_pos_iff] at h
  rw [compareSemver_nonpos_iff]
  exact greater_asymm h

theorem compareSemver_refl_nonpos (a : List Char) : compareSemver a a ≤ 0 := by
  rw [compareSemver_nonpos_iff]
  exact greater_irrefl _

/-! ### `pickMaxKey` selects a maximum under `compareSemver` -/

theorem foldMax_spec (l : List (List Char)) :
    ∀ acc, compareSemver acc
        (l.foldl (fun acc x => if compareSemver x acc > 0 then x else acc) acc) ≤ 0 ∧
      ∀ x ∈ l, compareSemver x
        (l.foldl (fun acc x => if compareSemver x acc > 0 then x else acc) acc) ≤ 0 := by
  induction l with
  | nil =>
    intro acc
    exact ⟨compareSemver_refl_nonpos acc, by simp⟩
  | cons y l ih =>
    intro acc
    simp only [List.foldl_cons]
    by_cases hy : compareSemver y acc > 0
    · rw [if_pos hy]
      obtain ⟨h1, h2⟩ := ih y
      refine ⟨compareSemver_nonpos_trans (compareSemver_nonpos_of_pos hy) h1, ?_⟩
      intro x hx
      rcases List.mem_cons.mp hx with rfl | hx
      · exact h1
      · exact h2 x hx
    · rw [if_neg hy]
      obtain ⟨h1, h2⟩ := ih acc
      refine ⟨h1, ?_⟩
      intro x hx
      rcases List.mem_cons.mp hx with rfl | hx
      · exact compareSemver_nonpos_trans (by omega) h1
      · exact h2 x hx

theorem foldMax_mem (l : List (List Char)) :
    ∀ acc, (l.foldl (fun acc x => if compareSemver x acc > 0 then x else acc) acc) = acc ∨
      (l.foldl (fun acc x => if compareSemver x acc > 0 then x else acc) acc) ∈ l := by
  induction l with
  | nil => intro acc; left; rfl
  | cons y l ih =>
    intro acc
    simp only [List.foldl_cons]
    by_cases hy : compareSemver y acc > 0
    · rw [if_pos hy]
      rcases ih y with h | h
      · right; rw [h]; exact List.mem_cons_self _ _
      · right; exact List.mem_cons_of_mem _ h
    · rw [if_neg hy]
      rcases ih acc with h | h
      · left; exact h
      · right; exact List.mem_cons_of_mem _ h

theorem pickMaxKey_mem {l : List (List Char)} {k : List Char}
    (h : pickMaxKey l = some k) : k ∈ l := by
  cases l with
  | nil => simp [pickMaxKey] at h
  | cons a l =>
    simp only [pickMaxKey, Option.some.injEq] at h
    rcases foldMax_mem l a with h' | h'
    · rw [← h, h']; exact List.mem_cons_self _ _
    · rw [← h]; exact List.mem_cons_of_mem _ h'

theorem pickMaxKey_max {l : List (List Char)} {k : List Char}
    (h : pickMaxKey l = some k) : ∀ x ∈ l, compareSemver x k ≤ 0 := by
  cases l with
  | nil => simp [pickMaxKey] at h
  | cons a l =>
    simp only [pickMaxKey, Option.some.injEq] at h
    obtain ⟨h1, h2⟩ := foldMax_spec l a
    intro x hx
    rcases List.mem_cons.mp hx with rfl | hx
    · rw [← h]; exact h1
    · rw [← h]; exact h2 x hx

theorem pickMaxKey_isSome {l : List (List Char)} (h : l ≠ []) :
    (pickMaxKey l).isSome := by
  cases l with
  | nil => exact absurd rfl h
  | cons a l => simp [pickMaxKey]

/-! ### The version map of `filterLatestVersion` -/

theorem mem_insertA {β : Type} {m : List (List Char × β)} {k : List Char} {v : β}
    {e : List Char × β} (h : e ∈ insertA m k v) : e ∈ m ∨ e = (k, v) := by
  induction m with
  | nil => simpa [insertA] using h
  | cons kv rest ih =>
    obtain ⟨k', v'⟩ := kv
    by_cases hk : k' = k
    · simp only [insertA, if_pos hk] at h
      rcases List.mem_cons.mp h with rfl | h
      · right; rw [hk]
      · left; exact List.mem_cons_of_mem _ h
    · simp only [insertA, if_neg hk] at h
      rcases List.mem_cons.mp h with rfl | h
      · left; exact List.mem_cons_self _ _
      · rcases ih h with h' | h'
        · left; exact List.mem_cons_of_mem _ h'
        · right; exact h'

theorem keys_insertA {β : Type} {m : List (List Char × β)} (k : List Char) (v : β)
    {q : List Char} (h : q ∈ m.map Prod.fst ∨ q = k) :
    q ∈ (insertA m k v).map Prod.fst := by
  induction m with
  | nil =>
    rcases h with h | rfl
    · simp at h
    · simp [insertA]
  | cons kv rest ih =>
    obtain ⟨k', v'⟩ := kv
    by_cases hk : k' = k
    · simp only [insertA, if_pos hk, List.map_cons, List.mem_cons]
      rcases h with h | rfl
      · simp only [List.map_cons, List.mem_cons] at h
        exact h
      · left; exact hk.symm
    · simp only [insertA, if_neg hk, List.map_cons, List.mem_cons]
      rcases h with h | rfl
      · simp only [List.map_cons, List.mem_cons] at h
        rcases h with h | h
        · left; exact h
        · right; exact ih (Or.inl h)
      · right; exact ih (Or.inr rfl)

theorem lookupA_mem {β : Type} {m : List (List Char × β)} {q : List Char} {v : β}
    (h : lookupA m q = some v) : (q, v) ∈ m := by
  induction m with
  | nil => simp [lookupA] at h
  | cons kv rest ih =>
    obtain ⟨k', v'⟩ := kv
    by_cases hk : q = k'
    · simp only [lookupA, if_pos hk, Option.some.injEq] at h
      rw [hk, ← h]
      exact List.mem_cons_self _ _
    · simp only [lookupA, if_neg hk] at h
      exact List.mem_cons_of_mem _ (ih h)

theorem lookupA_isSome_of_key {β : Type} {m : List (List Char × β)} {q : List Char}
    (h : q ∈ m.map Prod.fst) : (lookupA m q).isSome := by
  induction m with
  | nil => simp at h
  | cons kv rest ih =>
    obtain ⟨k', v'⟩ := kv
    by_cases hk : q = k'
    · simp [lookupA, if_pos hk]
    · simp only [List.map_cons, List.mem_cons] at h
      rcases h with h | h
      · exact absurd h hk
      · simpa [lookupA, if_neg hk] using ih h

theorem mem_buildVersionMap {tags : List Tag} :
    ∀ (m : List (List Char × Tag)) (e : List Char × Tag),
      e ∈ buildVersionMap tags m →
      e ∈ m ∨ (e.2 ∈ tags ∧ e.2.Version ≠ [] ∧ e.1 = canonKey e.2.Version) := by
  induction tags with
  | nil => intro m e h; left; exact h
  | cons t rest ih =>
    intro m e h
    by_cases hv : t.Version = []
    · simp only [buildVersionMap, if_pos hv] at h
      rcases ih _ _ h with h' | h'
      · left; exact h'
      · right; exact ⟨List.mem_cons_of_mem _ h'.1, h'.2⟩
    · simp only [buildVersionMap, if_neg hv] at h
      rcases ih _ _ h with h' | h'
      · rcases mem_insertA h' with h'' | h''
        · left; exact h''
        · right
          obtain ⟨e1, e2⟩ := e
          simp only [Prod.mk.injEq] at h''
          obtain ⟨rfl, rfl⟩ := h''
          exact ⟨List.mem_cons_self _ _, hv, rfl⟩
      · right; exact ⟨List.mem_cons_of_mem _ h'.1, h'.2⟩

theorem key_mem_buildVersionMap {tags : List Tag} :
    ∀ (m : List (List Char × Tag)) (t : Tag),
      (t ∈ tags ∧ t.Version ≠ []) ∨ canonKey t.Version ∈ m.map Prod.fst →
      canonKey t.Version ∈ (buildVersionMap tags m).map Prod.fst := by
  induction tags with
  | nil =>
    intro m t h
    rcases h with ⟨h, _⟩ | h
    · simp at h
    · exact h
  | cons t0 rest ih =>
    intro m t h
    by_cases hv : t0.Version = []
    · simp only [buildVersionMap, if_pos hv]
      rcases h with ⟨h, hne⟩ | h
      · rcases List.mem_cons.mp h with rfl | h
        · exact absurd hv hne
        · exact ih _ _ (Or.inl ⟨h, hne⟩)
      · exact ih _ _ (Or.inr h)
    · simp only [buildVersionMap, if_neg hv]
      rcases h with ⟨h, hne⟩ | h
      · rcases List.mem_cons.mp h with rfl | h
        · exact ih _ _ (Or.inr (keys_insertA _ _ (Or.inr rfl)))
        · exact ih _ _ (Or.inl ⟨h, hne⟩)
      · exact ih _ _ (Or.inr (keys_insertA _ _ (Or.inl h)))

/-- Unfolding equation for `filterLatestVersion`. -/
theorem filterLatestVersion_eq (tags : List Tag) :
    filterLatestVersion tags =
      match pickMaxKey ((buildVersionMap tags []).map Prod.fst) with
      | none => []
      | some k =>
        match lookupA (buildVersionMap tags []) k with
        | some t => [t]
        | none => [] := rfl

/-- Specification of `filterLatestVersion`: a singleton result is a tag
of the input with a non-empty version whose canonical key is maximal
under `compareSemver` among all canonical keys of the input. -/
theorem filterLatestVersion_spec {tags : List Tag} {l : Tag}
    (h : filterLatestVersion tags = [l]) :
    l ∈ tags ∧ l.Version ≠ [] ∧
      ∀ t ∈ tags, t.Version ≠ [] →
        compareSemver (canonKey t.Version) (canonKey l.Version) ≤ 0 := by
  rw [filterLatestVersion_eq] at h
  split at h
  · simp at h
  · rename_i k hp
    split at h
    · rename_i t hl
      simp only [List.cons.injEq, and_true] at h
      subst h
      have hmem := lookupA_mem hl
      rcases mem_buildVersionMap _ _ hmem with h' | h'
      · simp at h'
      · obtain ⟨hltags, hlver, hkey⟩ := h'
        refine ⟨hltags, hlver, ?_⟩
        intro t' ht' hv'
        have hk' : canonKey t'.Version ∈ ((buildVersionMap tags []).map Prod.fst) :=
          key_mem_buildVersionMap _ _ (Or.inl ⟨ht', hv'⟩)
        have := pickMaxKey_max hp _ hk'
        rwa [← hkey]
    · simp at h

/-- `filterLatestVersion` returns at most one tag. -/
theorem filterLatestVersion_length (tags : List Tag) :
    (filterLatestVersion tags).length ≤ 1 := by
  rw [filterLatestVersion_eq]
  split
  · simp
  · split <;> simp

/-- `filterLatestVersion` returns a tag whenever some input tag has a
non-empty version. -/
theorem filterLatestVersion_ne_nil {tags : List Tag} {t : Tag}
    (ht : t ∈ tags) (hv : t.Version ≠ []) :
    filterLatestVersion tags ≠ [] := by
  rw [filterLatestVersion_eq]
  have hk : canonKey t.Version ∈ ((buildVersionMap tags []).map Prod.fst) :=
    key_mem_buildVersionMap _ _ (Or.inl ⟨ht, hv⟩)
  split
  · rename_i hp
    have hne : ((buildVersionMap tags []).map Prod.fst) ≠ [] := by
      intro h
      rw [h] at hk
      simp at hk
    have hs := pickMaxKey_isSome hne
    rw [hp] at hs
    simp at hs
  · rename_i k hp
    have hks := lookupA_isSome_of_key (pickMaxKey_mem hp)
    split
    · simp
    · rename_i hl
      rw [hl] at hks
      simp at hks

/-- Every tag returned by `filterLatestVersion` is an input tag with a
non-empty parsed version. -/
theorem filterLatestVersion_subset {tags : List Tag} {t : Tag}
    (h : t ∈ filterLatestVersion tags) : t ∈ tags ∧ t.Version ≠ [] := by
  rw [filterLatestVersion_eq] at h
  split at h
  · simp at h
  · rename_i k hp
    split at h
    · rename_i t' hl
      simp only [List.mem_singleton] at h
      subst h
      rcases mem_buildVersionMap _ _ (lookupA_mem hl) with h' | h'
      · simp at h'
      · exact ⟨h'.1, h'.2.1⟩
    · simp at h

/-! ### Facts about `parseSemver`, `parseVersion` and `canonKey` -/

theorem toTriple_of_parseSemver {v : List Char} {t : Sem3}
    (h : parseSemver v = some t) : toTriple v = t := by
  unfold parseSemver at h
  split_ifs at h
  exact Option.some.inj h

theorem parseSemver_ne_nil {v : List Char} {t : Sem3}
    (h : parseSemver v = some t) : v ≠ [] := by
  intro hv
  subst hv
  rw [(by decide : parseSemver [] = none)] at h
  exact Option.noConfusion h

theorem digit_not_scanSpace {c : Char} (h : c.isDigit = true) :
    isScanSpace c = false := by
  rcases hb : isScanSpace c with _ | _
  · rfl
  · unfold isScanSpace at hb
    simp only [decide_eq_true_eq] at hb
    rcases hb with rfl | rfl <;> exact absurd h (by decide)

theorem digit_ne_minus {c : Char} (h : c.isDigit = true) : ¬ c = '-' := by
  intro hc
  rw [hc] at h
  exact absurd h (by decide)

theorem digit_ne_plus {c : Char} (h : c.isDigit = true) : ¬ c = '+' := by
  intro hc
  rw [hc] at h
  exact absurd h (by decide)

theorem takeWhile_append_stop {p : Char → Bool} {a : List Char} {b : Char}
    (ha : ∀ c ∈ a, p c = true) (hb : p b = false) (r : List Char) :
    (a ++ b :: r).takeWhile p = a := by
  induction a with
  | nil => simp [List.takeWhile_cons, hb]
  | cons x a ih =>
    have hx : p x = true := ha x (List.mem_cons_self _ _)
    simp only [List.cons_append, List.takeWhile_cons, hx, if_true]
    rw [ih (fun c hc => ha c (List.mem_cons_of_mem _ hc))]

theorem dropWhile_of_head_false {p : Char → Bool} {c : Char} {r : List Char}
    (h : p c = false) : (c :: r).dropWhile p = c :: r := by
  simp [List.dropWhile_cons, h]

/-- Unfolding of `scanIntFrom` at a head that is not scan space. -/
theorem scanIntFrom_cons {c : Char} (r : List Char) (h : isScanSpace c = false) :
    scanIntFrom (c :: r) =
      if c = '-' then digitsFrom (-1) r
      else if c = '+' then digitsFrom 1 r
      else digitsFrom 1 (c :: r) := by
  unfold scanIntFrom
  rw [dropWhile_of_head_false h]

/-- `scanIntFrom` on a non-empty digit run followed by a non-digit
character. -/
theorem scanIntFrom_digits {d : List Char} {b : Char} (r : List Char)
    (hd : d ≠ []) (hall : ∀ c ∈ d, c.isDigit = true) (hb : b.isDigit = false) :
    scanIntFrom (d ++ b :: r) = some ((digitsVal d : Int), b :: r) := by
  obtain ⟨c, d', rfl⟩ : ∃ c d', d = c :: d' := by
    cases d with
    | nil => exact absurd rfl hd
    | cons c d' => exact ⟨c, d', rfl⟩
  have hc : c.isDigit = true := hall c (List.mem_cons_self _ _)
  rw [List.cons_append, scanIntFrom_cons _ (digit_not_scanSpace hc),
    if_neg (digit_ne_minus hc), if_neg (digit_ne_plus hc)]
  unfold digitsFrom
  rw [← List.cons_append, takeWhile_append_stop hall hb r,
    if_neg (by simp), List.drop_left, one_mul]

/-- `scanIntFrom` on a non-empty digit run that ends the input. -/
theorem scanIntFrom_digits_end {d : List Char}
    (hd : d ≠ []) (hall : ∀ c ∈ d, c.isDigit = true) :
    scanIntFrom d = some ((digitsVal d : Int), []) := by
  obtain ⟨c, d', rfl⟩ : ∃ c d', d = c :: d' := by
    cases d with
    | nil => exact absurd rfl hd
    | cons c d' => exact ⟨c, d', rfl⟩
  have hc : c.isDigit = true := hall c (List.mem_cons_self _ _)
  rw [scanIntFrom_cons _ (digit_not_scanSpace hc),
    if_neg (digit_ne_minus hc), if_neg (digit_ne_plus hc)]
  unfold digitsFrom
  have htw : (c :: d').takeWhile Char.isDigit = c :: d' :=
    List.takeWhile_eq_self_iff.mpr hall
  rw [htw, if_neg (by simp), one_mul, List.drop_length]

/-- A well-shaped `d.d.d` text fully satisfies the `%d.%d.%d` scan. -/
theorem parseSemver_of_shape {d1 d2 d3 : List Char}
    (h1 : d1 ≠ []) (h2 : d2 ≠ []) (h3 : d3 ≠ [])
    (a1 : ∀ c ∈ d1, c.isDigit = true) (a2 : ∀ c ∈ d2, c.isDigit = true)
    (a3 : ∀ c ∈ d3, c.isDigit = true) :
    parseSemver (d1 ++ '.' :: (d2 ++ '.' :: d3)) =
      some ⟨(digitsVal d1 : Int), (digitsVal d2 : Int), (digitsVal d3 : Int)⟩ := by
  have e1 : scanIntFrom (d1 ++ '.' :: (d2 ++ '.' :: d3)) =
      some ((digitsVal d1 : Int), '.' :: (d2 ++ '.' :: d3)) :=
    scanIntFrom_digits _ h1 a1 (by decide)
  have e2 : scanIntFrom (d2 ++ '.' :: d3) =
      some ((digitsVal d2 : Int), '.' :: d3) :=
    scanIntFrom_digits _ h2 a2 (by decide)
  have e3 : scanIntFrom d3 = some ((digitsVal d3 : Int), []) :=
    scanIntFrom_digits_end h3 a3
  unfold parseSemver sscanfSemver
  simp [e1, e2, e3]

theorem matchDDD_shape {t g : List Char} (h : matchDDD t = some g) :
    ∃ d1 d2 d3, g = d1 ++ '.' :: (d2 ++ '.' :: d3) ∧
      d1 ≠ [] ∧ d2 ≠ [] ∧ d3 ≠ [] ∧
      (∀ c ∈ d1, c.isDigit = true) ∧ (∀ c ∈ d2, c.isDigit = true) ∧
      (∀ c ∈ d3, c.isDigit = true) := by
  unfold matchDDD at h
  split_ifs at h with e1
  split at h
  · rename_i t2 heq1
    split_ifs at h with e2
    split at h
    · rename_i t3 heq2
      split_ifs at h with e3
      exact ⟨t.takeWhile Char.isDigit, t2.takeWhile Char.isDigit,
        t3.takeWhile Char.isDigit, (Option.some.inj h).symm, e1, e2, e3,
        fun c hc => List.mem_takeWhile_imp hc,
        fun c hc => List.mem_takeWhile_imp hc,
        fun c hc => List.mem_takeWhile_imp hc⟩
    · exact Option.noConfusion h
  · exact Option.noConfusion h

theorem matchSemverAt_shape {s g : List Char} (h : matchSemverAt s = some g) :
    ∃ d1 d2 d3, g = d1 ++ '.' :: (d2 ++ '.' :: d3) ∧
      d1 ≠ [] ∧ d2 ≠ [] ∧ d3 ≠ [] ∧
      (∀ c ∈ d1, c.isDigit = true) ∧ (∀ c ∈ d2, c.isDigit = true) ∧
      (∀ c ∈ d3, c.isDigit = true) := by
  unfold matchSemverAt at h
  split at h <;> exact matchDDD_shape h

theorem parseVersion_shape {s : List Char} (h : parseVersion s ≠ []) :
    ∃ d1 d2 d3, parseVersion s = d1 ++ '.' :: (d2 ++ '.' :: d3) ∧
      d1 ≠ [] ∧ d2 ≠ [] ∧ d3 ≠ [] ∧
      (∀ c ∈ d1, c.isDigit = true) ∧ (∀ c ∈ d2, c.isDigit = true) ∧
      (∀ c ∈ d3, c.isDigit = true) := by
  induction s with
  | nil => exact absurd rfl h
  | cons c rest ih =>
    rcases hm : matchSemverAt (c :: rest) with _ | g
    · rw [parseVersion, hm] at h ⊢
      exact ih h
    · rw [parseVersion, hm] at h ⊢
      exact matchSemverAt_shape hm

/-- A non-empty `parseVersion` output parses under `parseSemver`. -/
theorem parseSemver_parseVersion {s : List Char} (h : parseVersion s ≠ []) :
    ∃ t, parseSemver (parseVersion s) = some t := by
  obtain ⟨d1, d2, d3, hg, h1, h2, h3, a1, a2, a3⟩ := parseVersion_shape h
  rw [hg]
  exact ⟨_, parseSemver_of_shape h1 h2 h3 a1 a2 a3⟩

theorem parseVersion_chars {s : List Char} {c : Char}
    (hc : c ∈ parseVersion s) : c.isDigit = true ∨ c = '.' := by
  by_cases h : parseVersion s = []
  · rw [h] at hc
    simp at hc
  · obtain ⟨d1, d2, d3, hg, _, _, _, a1, a2, a3⟩ := parseVersion_shape h
    rw [hg] at hc
    rcases List.mem_append.mp hc with hc | hc
    · exact Or.inl (a1 c hc)
    · rcases List.mem_cons.mp hc with rfl | hc
      · exact Or.inr rfl
      · rcases List.mem_append.mp hc with hc | hc
        · exact Or.inl (a2 c hc)
        · rcases List.mem_cons.mp hc with rfl | hc
          · exact Or.inr rfl
          · exact Or.inl (a3 c hc)

theorem splitOnChar_of_not_mem {sep : Char} {v : List Char} (h : sep ∉ v) :
    splitOnChar sep v = [v] := by
  induction v with
  | nil => rfl
  | cons c rest ih =>
    have hc : ¬ c = sep := by
      intro hc
      exact h (by rw [hc]; exact List.mem_cons_self _ _)
    have hrest : sep ∉ rest := fun hr => h (List.mem_cons_of_mem _ hr)
    rw [splitOnChar, ih hrest]
    simp [hc]

theorem canonKey_of_not_dash {v : List Char} (h : '-' ∉ v) :
    canonKey v = v := by
  unfold canonKey
  rw [splitOnChar_of_not_mem h]
  rfl

/-- `parseVersion` output contains no hyphen, so the canonicalization of
`filterLatestVersion` leaves it unchanged. -/
theorem canonKey_parseVersion (s : List Char) :
    canonKey (parseVersion s) = parseVersion s := by
  refine canonKey_of_not_dash ?_
  intro hmem
  rcases parseVersion_chars hmem with h | h
  · exact absurd h (by decide)
  · exact absurd h (by decide)

/-! ### `FindNearestUpgrade`: soundness, minimality, completeness -/

theorem fnuFold_cons_none {c : Sem3} {t0 : Tag} (rest : List Tag) (best : Option Tag)
    (hp : parseSemver t0.Version = none) :
    fnuFold c (t0 :: rest) best = fnuFold c rest best := by
  simp [fnuFold, hp]

theorem fnuFold_cons_skip {c : Sem3} {t0 : Tag} {p : Sem3} (rest : List Tag)
    (best : Option Tag) (hp : parseSemver t0.Version = some p)
    (hg : greater p c = false) :
    fnuFold c (t0 :: rest) best = fnuFold c rest best := by
  simp [fnuFold, hp, hg]

theorem fnuFold_cons_first {c : Sem3} {t0 : Tag} {p : Sem3} (rest : List Tag)
    (hp : parseSemver t0.Version = some p) (hg : greater p c = true) :
    fnuFold c (t0 :: rest) none = fnuFold c rest (some t0) := by
  simp [fnuFold, hp, hg]

theorem fnuFold_cons_replace {c : Sem3} {t0 b : Tag} {p : Sem3} (rest : List Tag)
    (hp : parseSemver t0.Version = some p) (hg : greater p c = true)
    (hb : greater (toTriple b.Version) p = true) :
    fnuFold c (t0 :: rest) (some b) = fnuFold c rest (some t0) := by
  simp [fnuFold, hp, hg, hb]

theorem fnuFold_cons_keep {c : Sem3} {t0 b : Tag} {p : Sem3} (rest : List Tag)
    (hp : parseSemver t0.Version = some p) (hg : greater p c = true)
    (hb : greater (toTriple b.Version) p = false) :
    fnuFold c (t0 :: rest) (some b) = fnuFold c rest (some b) := by
  simp [fnuFold, hp, hg, hb]

theorem fnuFold_sound (c : Sem3) :
    ∀ (tags : List Tag) (best : Option Tag) (t : Tag),
      (∀ b, best = some b →
        ∃ pb, parseSemver b.Version = some pb ∧ greater pb c = true) →
      fnuFold c tags best = some t →
      (∃ pt, parseSemver t.Version = some pt ∧ greater pt c = true ∧
        (∀ t' ∈ tags, ∀ p', parseSemver t'.Version = some p' →
          greater p' c = true → greater pt p' = false) ∧
        (∀ b pb, best = some b → parseSemver b.Version = some pb →
          greater pt pb = false)) ∧
      (t ∈ tags ∨ best = some t) := by
  intro tags
  induction tags with
  | nil =>
    intro best t hgood h
    rw [fnuFold] at h
    obtain ⟨pb, hpb, hgb⟩ := hgood t h
    refine ⟨⟨pb, hpb, hgb, by simp, ?_⟩, Or.inr h⟩
    intro b pb' hb hpb'
    rw [h] at hb
    obtain rfl := Option.some.inj hb
    rw [hpb] at hpb'
    obtain rfl := Option.some.inj hpb'
    exact greater_irrefl _
  | cons t0 rest ih =>
    intro best t hgood h
    rcases hp0 : parseSemver t0.Version with _ | p
    · rw [fnuFold_cons_none rest best hp0] at h
      obtain ⟨⟨pt, hpt, hgt, hrest, hbest⟩, hmem⟩ := ih best t hgood h
      refine ⟨⟨pt, hpt, hgt, ?_, hbest⟩, ?_⟩
      · intro t' ht' p' hp' hg'
        rcases List.mem_cons.mp ht' with rfl | ht'
        · rw [hp0] at hp'
          exact Option.noConfusion hp'
        · exact hrest t' ht' p' hp' hg'
      · rcases hmem with hmem | hmem
        · exact Or.inl (List.mem_cons_of_mem _ hmem)
        · exact Or.inr hmem
    · rcases hg0 : greater p c with _ | _
      · rw [fnuFold_cons_skip rest best hp0 hg0] at h
        obtain ⟨⟨pt, hpt, hgt, hrest, hbest⟩, hmem⟩ := ih best t hgood h
        refine ⟨⟨pt, hpt, hgt, ?_, hbest⟩, ?_⟩
        · intro t' ht' p' hp' hg'
          rcases List.mem_cons.mp ht' with rfl | ht'
          · rw [hp0] at hp'
            obtain rfl := Option.some.inj hp'
            rw [hg0] at hg'
            exact Bool.noConfusion hg'
          · exact hrest t' ht' p' hp' hg'
        · rcases hmem with hmem | hmem
          · exact Or.inl (List.mem_cons_of_mem _ hmem)
          · exact Or.inr hmem
      · rcases best with _ | b
        · rw [fnuFold_cons_first rest hp0 hg0] at h
          obtain ⟨⟨pt, hpt, hgt, hrest, hbest⟩, hmem⟩ :=
            ih (some t0) t (fun b hb => by
              obtain rfl := Option.some.inj hb
              exact ⟨p, hp0, hg0⟩) h
          have ht0 : greater pt p = false := hbest t0 p rfl hp0
          refine ⟨⟨pt, hpt, hgt, ?_, by simp⟩, ?_⟩
          · intro t' ht' p' hp' hg'
            rcases List.mem_cons.mp ht' with rfl | ht'
            · rw [hp0] at hp'
              obtain rfl := Option.some.inj hp'
              exact ht0
            · exact hrest t' ht' p' hp' hg'
          · rcases hmem with hmem | hmem
            · exact Or.inl (List.mem_cons_of_mem _ hmem)
            · obtain rfl := Option.some.inj hmem
              exact Or.inl (List.mem_cons_self _ _)
        · obtain ⟨pb, hpb, hgb⟩ := hgood b rfl
          rcases hgbp : greater pb p with _ | _
          · rw [fnuFold_cons_keep rest hp0 hg0
              (by rw [toTriple_of_parseSemver hpb]; exact hgbp)] at h
            obtain ⟨⟨pt, hpt, hgt, hrest, hbest⟩, hmem⟩ :=
              ih (some b) t (fun b' hb' => by
                obtain rfl := Option.some.inj hb'
                exact ⟨pb, hpb, hgb⟩) h
            have hvb : greater pt pb = false := hbest b pb rfl hpb
            refine ⟨⟨pt, hpt, hgt, ?_, ?_⟩, ?_⟩
            · intro t' ht' p' hp' hg'
              rcases List.mem_cons.mp ht' with rfl | ht'
              · rw [hp0] at hp'
                obtain rfl := Option.some.inj hp'
                exact greater_false_trans hvb hgbp
              · exact hrest t' ht' p' hp' hg'
            · intro b' pb' hb' hpb'
              obtain rfl := Option.some.inj hb'
              rw [hpb] at hpb'
              obtain rfl := Option.some.inj hpb'
              exact hvb
            · rcases hmem with hmem | hmem
              · exact Or.inl (List.mem_cons_of_mem _ hmem)
              · exact Or.inr hmem
          · rw [fnuFold_cons_replace rest hp0 hg0
              (by rw [toTriple_of_parseSemver hpb]; exact hgbp)] at h
            obtain ⟨⟨pt, hpt, hgt, hrest, hbest⟩, hmem⟩ :=
              ih (some t0) t (fun b' hb' => by
                obtain rfl := Option.some.inj hb'
                exact ⟨p, hp0, hg0⟩) h
            have ht0 : greater pt p = false := hbest t0 p rfl hp0
            refine ⟨⟨pt, hpt, hgt, ?_, ?_⟩, ?_⟩
            · intro t' ht' p' hp' hg'
              rcases List.mem_cons.mp ht' with rfl | ht'
              · rw [hp0] at hp'
                obtain rfl := Option.some.inj hp'
                exact ht0
              · exact hrest t' ht' p' hp' hg'
            · intro b' pb' hb' hpb'
              obtain rfl := Option.some.inj hb'
              rw [hpb] at hpb'
              obtain rfl := Option.some.inj hpb'
              rcases hcontra : greater pt pb with _ | _
              · rfl
              · exact absurd (greater_trans hcontra hgbp) (by rw [ht0]; simp)
            · rcases hmem with hmem | hmem
              · exact Or.inl (List.mem_cons_of_mem _ hmem)
              · obtain rfl := Option.some.inj hmem
                exact Or.inl (List.mem_cons_self _ _)

theorem fnuFold_some_ne_none (c : Sem3) :
    ∀ (tags : List Tag) (b : Tag), fnuFold c tags (some b) ≠ none := by
  intro tags
  induction tags with
  | nil => intro b h; rw [fnuFold] at h; exact Option.noConfusion h
  | cons t0 rest ih =>
    intro b h
    rcases hp0 : parseSemver t0.Version with _ | p
    · rw [fnuFold_cons_none rest _ hp0] at h
      exact ih b h
    · rcases hg0 : greater p c with _ | _
      · rw [fnuFold_cons_skip rest _ hp0 hg0] at h
        exact ih b h
      · rcases hgb : greater (toTriple b.Version) p with _ | _
        · rw [fnuFold_cons_keep rest hp0 hg0 hgb] at h
          exact ih b h
        · rw [fnuFold_cons_replace rest hp0 hg0 hgb] at h
          exact ih t0 h

theorem fnuFold_complete (c : Sem3) :
    ∀ (tags : List Tag) (best : Option Tag),
      fnuFold c tags best = none →
      best = none ∧ ∀ t' ∈ tags, ∀ p', parseSemver t'.Version = some p' →
        greater p' c = false := by
  intro tags
  induction tags with
  | nil =>
    intro best h
    rw [fnuFold] at h
    exact ⟨h, by simp⟩
  | cons t0 rest ih =>
    intro best h
    rcases hp0 : parseSemver t0.Version with _ | p
    · rw [fnuFold_cons_none rest best hp0] at h
      obtain ⟨hb, hrest⟩ := ih best h
      refine ⟨hb, ?_⟩
      intro t' ht' p' hp'
      rcases List.mem_cons.mp ht' with rfl | ht'
      · rw [hp0] at hp'
        exact Option.noConfusion hp'
      · exact hrest t' ht' p' hp'
    · rcases hg0 : greater p c with _ | _
      · rw [fnuFold_cons_skip rest best hp0 hg0] at h
        obtain ⟨hb, hrest⟩ := ih best h
        refine ⟨hb, ?_⟩
        intro t' ht' p' hp'
        rcases List.mem_cons.mp ht' with rfl | ht'
        · rw [hp0] at hp'
          obtain rfl := Option.some.inj hp'
          exact hg0
        · exact hrest t' ht' p' hp'
      · exfalso
        rcases best with _ | b
        · rw [fnuFold_cons_first rest hp0 hg0] at h
          exact fnuFold_some_ne_none c rest t0 h
        · rcases hgb : greater (toTriple b.Version) p with _ | _
          · rw [fnuFold_cons_keep rest hp0 hg0 hgb] at h
            exact fnuFold_some_ne_none c rest b h
          · rw [fnuFold_cons_replace rest hp0 hg0 hgb] at h
            exact fnuFold_some_ne_none c rest t0 h

/-- `FindNearestUpgrade` soundness: a returned tag is a tag of the list
whose version parses strictly greater than the parsed current version,
and no other parseable tag version lies strictly between. -/
theorem FindNearestUpgrade_sound {current : List Char} {tags : List Tag} {t : Tag}
    (h : FindNearestUpgrade current tags = some t) :
    ∃ c pt, parseSemver current = some c ∧ parseSemver t.Version = some pt ∧
      greater pt c = true ∧ t ∈ tags ∧
      ∀ t' ∈ tags, ∀ p', parseSemver t'.Version = some p' →
        greater p' c = true → greater pt p' = false := by
  unfold FindNearestUpgrade at h
  rcases hc : parseSemver current with _ | c
  · rw [hc] at h
    exact Option.noConfusion h
  · rw [hc] at h
    obtain ⟨⟨pt, hpt, hgt, hall, _⟩, hmem⟩ :=
      fnuFold_sound c tags none t (by simp) h
    rcases hmem with hmem | hmem
    · exact ⟨c, pt, rfl, hpt, hgt, hmem, hall⟩
    · exact Option.noConfusion hmem

/-- `FindNearestUpgrade` returns `none` exactly when the current version
fails the `%d.%d.%d` scan or no parseable tag version is strictly
greater. -/
theorem FindNearestUpgrade_none_iff (current : List Char) (tags : List Tag) :
    FindNearestUpgrade current tags = none ↔
      parseSemver current = none ∨
      (∃ c, parseSemver current = some c ∧
        ∀ t' ∈ tags, ∀ p', parseSemver t'.Version = some p' →
          greater p' c = false) := by
  unfold FindNearestUpgrade
  rcases hc : parseSemver current with _ | c
  · simp
  · simp only [reduceCtorEq, false_or]
    constructor
    · intro h
      exact ⟨c, rfl, (fnuFold_complete c tags none h).2⟩
    · rintro ⟨c', hc', hall⟩
      obtain rfl := Option.some.inj hc'
      rcases hres : fnuFold c tags none with _ | t
      · rfl
      · obtain ⟨⟨pt, hpt, hgt, _, _⟩, hmem⟩ :=
          fnuFold_sound c tags none t (by simp) hres
        rcases hmem with hmem | hmem
        · rw [hall t hmem pt hpt] at hgt
          exact Bool.noConfusion hgt
        · exact Option.noConfusion hmem

/-! ### `strings.ReplaceAll` facts -/

theorem replaceAllF_of_none {pat rep s : List Char}
    (h : findOcc pat s = none) : ∀ f, replaceAllF f pat rep s = s := by
  intro f
  cases f with
  | zero => rfl
  | succ f => simp [replaceAllF, h]

theorem replaceAll_of_not_contains {pat rep s : List Char}
    (h : containsSeg pat s = false) : replaceAll pat rep s = s := by
  unfold replaceAll
  by_cases hp : pat = []
  · rw [if_pos hp]
  · rw [if_neg hp]
    unfold containsSeg at h
    exact replaceAllF_of_none (Option.not_isSome_iff_eq_none.mp (by rw [h]; simp)) _

theorem replaceAllF_succ_some {pat rep s : List Char} {i : Nat}
    (f : Nat) (h : findOcc pat s = some i) :
    replaceAllF (f + 1) pat rep s =
      s.take i ++ rep ++ replaceAllF f pat rep (s.drop (i + pat.length)) := by
  simp [replaceAllF, h]

theorem findOcc_self (pat b : List Char) : findOcc pat (pat ++ b) = some 0 := by
  cases pat with
  | nil =>
    cases b with
    | nil => rfl
    | cons c r => simp [findOcc]
  | cons c p' =>
    have hpre : (c :: p').isPrefixOf ((c :: p') ++ b) = true :=
      List.isPrefixOf_iff_prefix.mpr (List.prefix_append _ _)
    rw [List.cons_append]
    simp only [findOcc, List.append_eq]
    rw [← List.cons_append, hpre]
    simp

theorem containsSeg_mid (pat a b : List Char) :
    containsSeg pat (a ++ pat ++ b) = true := by
  induction a with
  | nil =>
    unfold containsSeg
    rw [List.nil_append, findOcc_self]
    rfl
  | cons c a' ih =>
    unfold containsSeg
    rw [List.cons_append]
    simp only [findOcc, List.append_eq]
    by_cases hpre : pat.isPrefixOf (c :: (a' ++ pat ++ b)) = true
    · rw [hpre]
      simp
    · rw [Bool.not_eq_true] at hpre
      rw [hpre]
      simp only [if_false, Bool.false_eq_true]
      unfold containsSeg at ih
      rw [Option.isSome_map']
      exact ih

/-- The frame property of one `ReplaceAll` call: when the pattern occurs
first at position `a.length` and not at all in `b`, exactly that
occurrence is replaced and every other character is kept. -/
theorem replaceAll_single {pat rep a b : List Char} (hne : pat ≠ [])
    (hfind : findOcc pat (a ++ pat ++ b) = some a.length)
    (hb : findOcc pat b = none) :
    replaceAll pat rep (a ++ pat ++ b) = a ++ rep ++ b := by
  unfold replaceAll
  rw [if_neg hne]
  have hpat : 1 ≤ pat.length := by
    cases pat with
    | nil => exact absurd rfl hne
    | cons c p' => simp
  rcases hlen : (a ++ pat ++ b).length with _ | n
  · exfalso
    simp only [List.length_append] at hlen
    omega
  · rw [replaceAllF_succ_some n hfind]
    have htake : (a ++ pat ++ b).take a.length = a := by
      rw [List.append_assoc, List.take_left]
    have hdrop : (a ++ pat ++ b).drop (a.length + pat.length) = b := by
      rw [← List.length_append, List.drop_left]
    rw [htake, hdrop, replaceAllF_of_none hb]

theorem oldPattern_ne_nil (d : Dependency) : oldPattern d ≠ [] := by
  unfold oldPattern
  simp

theorem oldImagePattern_ne_nil (d : Dependency) : oldImagePattern d ≠ [] := by
  unfold oldImagePattern
  simp

/-- When neither pattern occurs in a file content, `ApplyUpdate`'s
rewrite leaves it unchanged. -/
theorem applyContent_of_not_contains {d : Dependency} {s : List Char}
    (h1 : containsSeg (oldPattern d) s = false)
    (h2 : containsSeg (oldImagePattern d) s = false) :
    applyContent d s = s := by
  unfold applyContent
  rw [replaceAll_of_not_contains h1, replaceAll_of_not_contains h2]

/-! ### File-system facts for `ApplyUpdate` -/

theorem lookupFs_writeFileFs_self {fs : Fs} {p : List Char} {f : FileState}
    (h : lookupFs fs p = some f) (c : List Char) (perm : Nat) :
    lookupFs (writeFileFs fs p c perm) p = some ⟨c, f.mode⟩ := by
  induction fs with
  | nil => simp [lookupFs] at h
  | cons e rest ih =>
    obtain ⟨p', f'⟩ := e
    by_cases hp : p' = p
    · subst hp
      rw [lookupFs, if_pos rfl] at h
      obtain rfl := Option.some.inj h
      rw [writeFileFs, if_pos rfl, lookupFs, if_pos rfl]
    · rw [lookupFs, if_neg (fun hh => hp hh.symm)] at h
      rw [writeFileFs, if_neg hp, lookupFs, if_neg (fun hh => hp hh.symm)]
      exact ih h

theorem lookupFs_writeFileFs_other {fs : Fs} {p q : List Char}
    (h : q ≠ p) (c : List Char) (perm : Nat) :
    lookupFs (writeFileFs fs p c perm) q = lookupFs fs q := by
  induction fs with
  | nil => simp [writeFileFs, lookupFs, h]
  | cons e rest ih =>
    obtain ⟨p', f'⟩ := e
    by_cases hp : p' = p
    · subst hp
      rw [writeFileFs, if_pos rfl, lookupFs, lookupFs, if_neg h, if_neg h]
    · rw [writeFileFs, if_neg hp]
      by_cases hq : q = p'
      · rw [lookupFs, if_pos hq, lookupFs, if_pos hq]
      · rw [lookupFs, if_neg hq, lookupFs, if_neg hq]
        exact ih

/-! ### Workflow facts: the apply loop and `UpdateRepository` -/

theorem ApplyUpdate_pres {d : Dependency} {fs fs' : Fs}
    (h : ApplyUpdate d fs = some fs') :
    ∀ q, (lookupFs fs' q).isSome = (lookupFs fs q).isSome := by
  unfold ApplyUpdate at h
  rcases hl : lookupFs fs d.File with _ | f
  · rw [hl] at h
    exact Option.noConfusion h
  · rw [hl] at h
    obtain rfl := Option.some.inj h
    intro q
    by_cases hq : q = d.File
    · subst hq
      rw [lookupFs_writeFileFs_self hl, hl]
      rfl
    · rw [lookupFs_writeFileFs_other hq]

theorem applyLoop_cons_eq {d : Dependency} {rest : List Dependency} {fs : Fs} :
    applyLoop (d :: rest) fs =
      match ApplyUpdate d fs with
      | none => .error (d, fs)
      | some fs' => applyLoop rest fs' := rfl

theorem applyLoop_error (d : Dependency) (post : List Dependency) :
    ∀ (pre : List Dependency) (fs : Fs),
      (∀ p ∈ pre, (lookupFs fs p.File).isSome = true) →
      lookupFs fs d.File = none →
      applyLoop (pre ++ d :: post) fs = .error (d, applyAllS pre fs) := by
  intro pre
  induction pre with
  | nil =>
    intro fs _ hd
    have happ : ApplyUpdate d fs = none := by
      unfold ApplyUpdate
      rw [hd]
    rw [List.nil_append]
    simp only [applyLoop_cons_eq, happ]
    rfl
  | cons p pre' ih =>
    intro fs hpre hd
    have hp : (lookupFs fs p.File).isSome = true :=
      hpre p (List.mem_cons_self _ _)
    rcases happ : ApplyUpdate p fs with _ | fs1
    · exfalso
      unfold ApplyUpdate at happ
      rcases hl : lookupFs fs p.File with _ | f
      · rw [hl] at hp
        exact Bool.noConfusion hp
      · rw [hl] at happ
        exact Option.noConfusion happ
    · rw [List.cons_append]
      simp only [applyLoop_cons_eq, happ]
      have hall : ∀ q ∈ pre', (lookupFs fs1 q.File).isSome = true := by
        intro q hq
        rw [ApplyUpdate_pres happ]
        exact hpre q (List.mem_cons_of_mem _ hq)
      have hd1 : lookupFs fs1 d.File = none := by
        have := ApplyUpdate_pres happ d.File
        rw [hd] at this
        simp only [Option.isSome_none] at this
        exact Option.not_isSome_iff_eq_none.mp (by rw [this]; simp)
      rw [ih fs1 hall hd1]
      have heq : applyAllS (p :: pre') fs = applyAllS pre' fs1 := by
        simp only [applyAllS, happ, Option.getD_some]
      rw [heq]

theorem depsToUpdate_nil {deps : List Dependency} (selected : List (List Char))
    (h : ∀ d ∈ deps, d.CurrentVersion = d.LatestVersion) :
    depsToUpdate deps selected = [] := by
  unfold depsToUpdate
  split_ifs
  · rw [List.filter_eq_nil_iff]
    intro d hd
    simp [h d hd]
  · rw [List.filter_eq_nil_iff]
    intro d hd
    simp [h d hd]

/-- Unfolding equation for `UpdateRepository`. -/
theorem UpdateRepository_eq (deps : List Dependency) (selected : List (List Char))
    (fs : Fs) (git : GitEnv) :
    UpdateRepository deps selected fs git =
      if ¬ git.currentBranchOk then
        ⟨false, "Failed to get current branch".toList, fs, false, false, false⟩
      else
        match depsToUpdate deps selected with
        | [] => ⟨true, "No dependencies need updating".toList, fs, false, false, false⟩
        | d0 :: rest =>
          if ¬ git.createBranchOk then
            ⟨false, "Failed to create update branch".toList, fs, true, false, false⟩
          else
            match applyLoop (d0 :: rest) fs with
            | .error (d, fs') => ⟨false, applyFailMsg d, fs', true, false, false⟩
            | .ok fs' =>
              if ¬ git.commitOk then
                ⟨false, "Failed to commit changes".toList, fs', true, true, false⟩
              else if ¬ git.pushOk then
                ⟨false, "Failed to push branch".toList, fs', true, true, true⟩
              else
                ⟨true, "Updated dependencies and pushed".toList, fs', true, true, true⟩ := rfl

/-- Scenario C machinery: with nothing to update the run returns success,
the no-update message, an unchanged file system and no git side effect. -/
theorem UpdateRepository_short_circuit {deps : List Dependency}
    (selected : List (List Char)) (fs : Fs) (git : GitEnv)
    (hbranch : git.currentBranchOk = true)
    (hall : ∀ d ∈ deps, d.CurrentVersion = d.LatestVersion) :
    UpdateRepository deps selected fs git =
      ⟨true, "No dependencies need updating".toList, fs, false, false, false⟩ := by
  rw [UpdateRepository_eq, if_neg (by rw [hbranch]; simp), depsToUpdate_nil selected hall]

/-- Scenario D machinery: the first failing apply stops the loop; the
run reports failure with the failing dependency's message, keeps the
edits already applied, and attempts neither commit nor push. -/
theorem UpdateRepository_apply_failure {deps : List Dependency}
    {selected : List (List Char)} {fs : Fs} {git : GitEnv}
    {pre post : List Dependency} {d : Dependency}
    (hbranch : git.currentBranchOk = true)
    (hcreate : git.createBranchOk = true)
    (hsel : depsToUpdate deps selected = pre ++ d :: post)
    (hpre : ∀ p ∈ pre, (lookupFs fs p.File).isSome = true)
    (hd : lookupFs fs d.File = none) :
    UpdateRepository deps selected fs git =
      ⟨false, applyFailMsg d, applyAllS pre fs, true, false, false⟩ := by
  rw [UpdateRepository_eq, if_neg (by rw [hbranch]; simp), hsel]
  obtain ⟨d0, rest, hcons⟩ : ∃ d0 rest, pre ++ d :: post = d0 :: rest := by
    cases pre with
    | nil => exact ⟨d, post, rfl⟩
    | cons p pre' => exact ⟨p, pre' ++ d :: post, List.cons_append _ _ _⟩
  simp only [hcons]
  rw [if_neg (by rw [hcreate]; simp), ← hcons,
    applyLoop_error d post pre fs hpre hd]

theorem applyFailMsg_names {d : Dependency} :
    containsSeg d.Name (applyFailMsg d) = true := by
  unfold applyFailMsg
  rw [List.append_assoc ("Failed to apply update for ".toList ++ d.Name)]
  exact containsSeg_mid d.Name _ _

/-! ### Scanner facts -/

theorem versionDeps_map_depKey (path : List Char) (o1 o2 : Oracle) (l : List Char) :
    (versionDeps path o1 l).map depKey = (versionDeps path o2 l).map depKey := by
  unfold versionDeps
  rcases versionLineMatch l with _ | m
  · rfl
  · rfl

theorem imageDeps_map_depKey (path : List Char) (o1 o2 : Oracle) (l : List Char) :
    (imageDeps path o1 l).map depKey = (imageDeps path o2 l).map depKey := by
  unfold imageDeps
  induction imageLineMatches l with
  | nil => rfl
  | cons m ms ih =>
    rw [List.filterMap_cons, List.filterMap_cons]
    by_cases hdollar : m.2.head? = some '$'
    · have e1 : imageDepOf path o1 m = none := by
        unfold imageDepOf
        rw [if_pos hdollar]
      have e2 : imageDepOf path o2 m = none := by
        unfold imageDepOf
        rw [if_pos hdollar]
      simp only [e1, e2]
      exact ih
    · have e1 : imageDepOf path o1 m = some
        { Name := m.1, CurrentVersion := m.2,
          LatestVersion := resolveImage o1 m.1 m.2, File := path,
          UpdaterName := "docker".toList } := by
        unfold imageDepOf
        rw [if_neg hdollar]
      have e2 : imageDepOf path o2 m = some
        { Name := m.1, CurrentVersion := m.2,
          LatestVersion := resolveImage o2 m.1 m.2, File := path,
          UpdaterName := "docker".toList } := by
        unfold imageDepOf
        rw [if_neg hdollar]
      simp only [e1, e2, List.map_cons, ih]
      rfl

theorem lineDeps_map_depKey (path : List Char) (o1 o2 : Oracle) (l : List Char) :
    (lineDeps path o1 l).map depKey = (lineDeps path o2 l).map depKey := by
  unfold lineDeps
  rw [List.map_append, List.map_append,
    versionDeps_map_depKey path o1 o2 l, imageDeps_map_depKey path o1 o2 l]

/-- The scan-determined part of every dependency — name, current
version, file, updater — does not depend on the registry oracle. -/
theorem scan_depKey_oracle_free (path content : List Char) (o1 o2 : Oracle) :
    (scanBuildImagesFile path content o1).map depKey =
      (scanBuildImagesFile path content o2).map depKey := by
  unfold scanBuildImagesFile
  induction keptLines content with
  | nil => rfl
  | cons l ls ih =>
    simp only [List.map_cons, List.flatten_cons, List.map_append]
    rw [lineDeps_map_depKey path o1 o2 l, ih]

theorem resolveApp_none {o : Oracle} (hfail : ∀ s, o s = none)
    (app cur : List Char) : resolveApp o app cur = cur := by
  unfold resolveApp
  rcases lookupA knownApps app with _ | img
  · rfl
  · show (match o img with | some v => v | none => cur) = cur
    rw [hfail img]

theorem resolveImage_none {o : Oracle} (hfail : ∀ s, o s = none)
    (name tag : List Char) : resolveImage o name tag = tag := by
  unfold resolveImage
  rw [hfail name]

/-- With a registry that always fails, every scanned dependency carries
`LatestVersion = CurrentVersion`. -/
theorem scan_fallback {path content : List Char} {o : Oracle}
    (hfail : ∀ s, o s = none) :
    ∀ d ∈ scanBuildImagesFile path content o,
      d.LatestVersion = d.CurrentVersion := by
  intro d hd
  unfold scanBuildImagesFile at hd
  obtain ⟨deps, hdeps, hdmem⟩ := List.mem_flatten.mp hd
  obtain ⟨l, _, rfl⟩ := List.mem_map.mp hdeps
  unfold lineDeps at hdmem
  rcases List.mem_append.mp hdmem with hdmem | hdmem
  · unfold versionDeps at hdmem
    rcases hm : versionLineMatch l with _ | m
    · rw [hm] at hdmem
      simp at hdmem
    · rw [hm] at hdmem
      simp only [List.mem_singleton] at hdmem
      subst hdmem
      exact resolveApp_none hfail m.1 m.2
  · unfold imageDeps at hdmem
    obtain ⟨m, _, hfm⟩ := List.mem_filterMap.mp hdmem
    unfold imageDepOf at hfm
    split_ifs at hfm
    obtain rfl := Option.some.inj hfm
    exact resolveImage_none hfail m.1 m.2

theorem tryImageAt_tag_chars {s : List Char} {name tag : List Char} {len : Nat}
    (h : tryImageAt s = some (name, tag, len)) :
    ∀ c ∈ tag, isTagChar c = true := by
  unfold tryImageAt at h
  split_ifs at h with h1 h2
  split at h
  · split_ifs at h with h3
    rw [Option.some.injEq, Prod.mk.injEq] at h
    obtain ⟨hn, h'⟩ := h
    rw [Prod.mk.injEq] at h'
    obtain ⟨ht, hlen⟩ := h'
    subst ht
    intro c hc
    exact List.mem_takeWhile_imp hc
  · exact Option.noConfusion h

theorem imageMatchesF_tag_chars :
    ∀ (fuel : Nat) (s : List Char) (m : List Char × List Char),
      m ∈ imageMatchesF fuel s → ∀ c ∈ m.2, isTagChar c = true := by
  intro fuel
  induction fuel with
  | zero => intro s m hm; simp [imageMatchesF] at hm
  | succ fuel ih =>
    intro s m hm
    rcases s with _ | ⟨c0, rest⟩
    · simp [imageMatchesF] at hm
    · rw [imageMatchesF] at hm
      rcases htry : tryImageAt (c0 :: rest) with _ | ⟨name, tag, len⟩
      · rw [htry] at hm
        exact ih rest m hm
      · rw [htry] at hm
        rcases List.mem_cons.mp hm with rfl | hm
        · exact tryImageAt_tag_chars htry
        · exact ih _ m hm

/-- No tag captured by the image regular expression contains the `$`
sigil (the tag character class excludes it). -/
theorem imageLineMatches_no_dollar {l : List Char} {m : List Char × List Char}
    (hm : m ∈ imageLineMatches l) : ∀ c ∈ m.2, ¬ c = '$' := by
  intro c hc hdollar
  have := imageMatchesF_tag_chars l.length l m hm c hc
  rw [hdollar] at this
  exact absurd this (by decide)

/-- Every scanned dependency whose current version begins with the `$`
sigil came from the version-variable path, never from an image
reference. -/
theorem scan_dollar_only_version_vars {path content : List Char} {o : Oracle}
    {d : Dependency} (hd : d ∈ scanBuildImagesFile path content o)
    (hdollar : d.CurrentVersion.head? = some '$') :
    ∃ l, l ∈ keptLines content ∧ d ∈ versionDeps path o l := by
  unfold scanBuildImagesFile at hd
  obtain ⟨deps, hdeps, hdmem⟩ := List.mem_flatten.mp hd
  obtain ⟨l, hl, rfl⟩ := List.mem_map.mp hdeps
  unfold lineDeps at hdmem
  rcases List.mem_append.mp hdmem with hdmem | hdmem
  · exact ⟨l, hl, hdmem⟩
  · exfalso
    unfold imageDeps at hdmem
    obtain ⟨m, _, hfm⟩ := List.mem_filterMap.mp hdmem
    unfold imageDepOf at hfm
    split_ifs at hfm with hdol
    obtain rfl := Option.some.inj hfm
    exact hdol hdollar

/-! ### Pagination accumulation -/

/-- The Docker Hub page loop accumulates every page's tag names in
order, each tagged with its parsed version. -/
theorem getDockerHubTags_flatten (pages : List (List (List Char))) :
    getDockerHubTags pages = pages.flatten.map newTag := by
  induction pages with
  | nil => rfl
  | cons page rest ih =>
    rw [getDockerHubTags, List.flatten_cons, List.map_append, ih]

theorem findOcc_none_of_not_contains {pat s : List Char}
    (h : containsSeg pat s = false) : findOcc pat s = none := by
  unfold containsSeg at h
  exact Option.not_isSome_iff_eq_none.mp (by rw [h]; simp)

theorem writeFileFs_id {fs : Fs} {p : List Char} {f : FileState}
    (h : lookupFs fs p = some f) (perm : Nat) :
    writeFileFs fs p f.content perm = fs := by
  induction fs with
  | nil => simp [lookupFs] at h
  | cons e rest ih =>
    obtain ⟨p', f'⟩ := e
    by_cases hp : p' = p
    · subst hp
      rw [lookupFs, if_pos rfl] at h
      obtain rfl := Option.some.inj h
      rw [writeFileFs, if_pos rfl]
    · rw [lookupFs, if_neg (fun hh => hp hh.symm)] at h
      rw [writeFileFs, if_neg hp, ih h]

theorem eq_singleton_of_mem_of_length_le {α : Type} {l : List α} {x : α}
    (hx : x ∈ l) (hlen : l.length ≤ 1) : l = [x] := by
  cases l with
  | nil => simp at hx
  | cons a rest =>
    cases rest with
    | nil =>
      rcases List.mem_cons.mp hx with rfl | hx
      · rfl
      · simp at hx
    | cons b rest' => simp at hlen

/-! ### The claims -/

/-- Auxiliary unfolding: a successful read makes `ApplyUpdate` rewrite
and write back. -/
theorem ApplyUpdate_some {d : Dependency} {fs : Fs} {f : FileState}
    (h : lookupFs fs d.File = some f) :
    ApplyUpdate d fs = some (writeFileFs fs d.File (applyContent d f.content) 420) := by
  unfold ApplyUpdate
  rw [h]

/-- C1 (amended).  `FindNearestUpgrade` returns a tag of the list whose
parsed version is strictly greater than the parsed current version and
minimal among such parseable versions; it returns a result whenever one
qualifies; it returns no result exactly when the current string fails
the `%d.%d.%d` scan (which accepts trailing text such as a fourth
component, rather than demanding exactly three components); and on tag
lists built by the tag parser the result is at most the
absolute-latest under `compareSemver`. -/
theorem claim_C1 :
    (∀ (current : List Char) (tags : List Tag) (t : Tag),
      FindNearestUpgrade current tags = some t →
      ∃ c pt, parseSemver current = some c ∧ parseSemver t.Version = some pt ∧
        greater pt c = true ∧ t ∈ tags ∧
        ∀ t' ∈ tags, ∀ p', parseSemver t'.Version = some p' →
          greater p' c = true → greater pt p' = false) ∧
    (∀ (current : List Char) (tags : List Tag) (c : Sem3) (t' : Tag) (p' : Sem3),
      parseSemver current = some c → t' ∈ tags →
      parseSemver t'.Version = some p' → greater p' c = true →
      FindNearestUpgrade current tags ≠ none) ∧
    (∀ (current : List Char) (tags : List Tag),
      parseSemver current = none → FindNearestUpgrade current tags = none) ∧
    (∀ (current : List Char) (names : List (List Char)) (t l : Tag),
      FindNearestUpgrade current (names.map newTag) = some t →
      filterLatestVersion (names.map newTag) = [l] →
      compareSemver t.Version l.Version ≤ 0) := by
  refine ⟨fun current tags t h => FindNearestUpgrade_sound h, ?_, ?_, ?_⟩
  · intro current tags c t' p' hc ht' hp' hg' hnone
    rcases (FindNearestUpgrade_none_iff current tags).mp hnone with h | ⟨c2, hc2, hall⟩
    · rw [hc] at h
      exact Option.noConfusion h
    · rw [hc] at hc2
      obtain rfl := Option.some.inj hc2
      rw [hall t' ht' p' hp'] at hg'
      exact Bool.noConfusion hg'
  · intro current tags hc
    exact (FindNearestUpgrade_none_iff current tags).mpr (Or.inl hc)
  · intro current names t l hn hl
    obtain ⟨c, pt, hc, hpt, hgt, hmem, _⟩ := FindNearestUpgrade_sound hn
    obtain ⟨hlmem, hlver, hmax⟩ := filterLatestVersion_spec hl
    have hver : t.Version ≠ [] := by
      intro hnil
      rw [hnil] at hpt
      exact parseSemver_ne_nil hpt rfl
    have := hmax t hmem hver
    obtain ⟨nm, _, rfl⟩ := List.mem_map.mp hmem
    obtain ⟨nm', _, rfl⟩ := List.mem_map.mp hlmem
    rwa [show (newTag nm).Version = parseVersion nm from rfl,
      show (newTag nm').Version = parseVersion nm' from rfl,
      canonKey_parseVersion nm, canonKey_parseVersion nm'] at this

/-- C1 counterexample: the current string `1.2.3.4` does not consist of
exactly three dot-separated numeric components, yet nearest-upgrade
resolution returns a result (the `%d.%d.%d` scan ignores the trailing
`.4`), contradicting the claim's "no result" clause. -/
theorem claim_C1_counterexample :
    FindNearestUpgrade "1.2.3.4".toList [⟨"two".toList, "2.0.0".toList⟩] =
      some ⟨"two".toList, "2.0.0".toList⟩ := by decide

/-- C1 witness: for current `1.2.0` over `{1.2.1, 1.3.0, 2.0.0}` the
nearest upgrade `1.2.1` is at most the absolute latest `2.0.0`. -/
theorem claim_C1_witness :
    compareSemver "1.2.1".toList "2.0.0".toList ≤ 0 :=
  claim_C1.2.2.2 "1.2.0".toList
    ["1.2.1".toList, "1.3.0".toList, "2.0.0".toList]
    ⟨"1.2.1".toList, "1.2.1".toList⟩ ⟨"2.0.0".toList, "2.0.0".toList⟩
    (by decide) (by decide)

/-- C2 (amended).  On tag lists as built by the tag parser,
`filterLatestVersion` returns at most one tag; it returns one whenever
some tag has a non-empty parsed version; and the returned tag is an
input tag with a parseable version that is maximal under
`compareSemver`; in particular `{1.2.1, 1.3.0, 2.0.0}` yields the
`2.0.0` tag. -/
theorem claim_C2 :
    (∀ (names : List (List Char)) (t : Tag),
      filterLatestVersion (names.map newTag) = [t] →
      t ∈ names.map newTag ∧ (∃ pt, parseSemver t.Version = some pt) ∧
        ∀ t' ∈ names.map newTag, t'.Version ≠ [] →
          compareSemver t'.Version t.Version ≤ 0) ∧
    (∀ (names : List (List Char)) (t : Tag), t ∈ names.map newTag →
      t.Version ≠ [] → filterLatestVersion (names.map newTag) ≠ []) ∧
    (∀ tags : List Tag, (filterLatestVersion tags).length ≤ 1) ∧
    filterLatestVersion (["1.2.1".toList, "1.3.0".toList, "2.0.0".toList].map newTag) =
      [⟨"2.0.0".toList, "2.0.0".toList⟩] := by
  refine ⟨?_, fun names t hmem hver => filterLatestVersion_ne_nil hmem hver,
    filterLatestVersion_length, by decide⟩
  intro names t hsing
  obtain ⟨hmem, hver, hmax⟩ := filterLatestVersion_spec hsing
  obtain ⟨nm, _, rfl⟩ := List.mem_map.mp hmem
  refine ⟨hmem, parseSemver_parseVersion hver, ?_⟩
  intro t' ht' hv'
  have := hmax t' ht' hv'
  obtain ⟨nm', _, rfl⟩ := List.mem_map.mp ht'
  rwa [show (newTag nm).Version = parseVersion nm from rfl,
    show (newTag nm').Version = parseVersion nm' from rfl,
    canonKey_parseVersion nm, canonKey_parseVersion nm'] at this

/-- C2 counterexample: a tag whose `Version` field is non-empty but not
a parseable three-component version is still selected (the source
filters only on emptiness), contradicting "picks among the tags that
carry a parseable three-component version". -/
theorem claim_C2_counterexample :
    filterLatestVersion [⟨"latest-tag".toList, "zz".toList⟩] =
      [⟨"latest-tag".toList, "zz".toList⟩] ∧
    parseSemver "zz".toList = none := by decide

/-- C2 witness: among `{1.2.1, 1.3.0, 2.0.0}` every version compares at
most the selected `2.0.0`. -/
theorem claim_C2_witness :
    compareSemver "1.3.0".toList "2.0.0".toList ≤ 0 :=
  ((claim_C2.1 ["1.2.1".toList, "1.3.0".toList, "2.0.0".toList]
    ⟨"2.0.0".toList, "2.0.0".toList⟩ (by decide)).2.2)
    ⟨"1.3.0".toList, "1.3.0".toList⟩ (by decide) (by decide)

/-- C3 (amended).  Re-invoking `ApplyUpdate` with identical arguments is
a no-op whenever the two `CurrentVersion` patterns no longer occur in
the file after the first successful apply — which one apply need not
guarantee, since the `LatestVersion` replacement can reintroduce the
registry-tag pattern (see the counterexample). -/
theorem claim_C3 :
    ∀ (d : Dependency) (fs fs' : Fs) (f : FileState),
      ApplyUpdate d fs = some fs' →
      lookupFs fs' d.File = some f →
      containsSeg (oldPattern d) f.content = false →
      containsSeg (oldImagePattern d) f.content = false →
      ApplyUpdate d fs' = some fs' := by
  intro d fs fs' f _ hlook h1 h2
  rw [ApplyUpdate_some hlook, applyContent_of_not_contains h1 h2,
    writeFileFs_id hlook]

/-- C3 counterexample: for dependency `a` with versions `1 → 11` on a
file containing `a:1`, the pattern `a:1` still occurs after one apply
(the file now reads `a:11`) and a second identical apply changes the
file again (to `a:111`): the operation is not idempotent as claimed. -/
theorem claim_C3_counterexample :
    ApplyUpdate ⟨"a".toList, "1".toList, "11".toList, "f".toList, "docker".toList⟩
        [("f".toList, ⟨"a:1".toList, 420⟩)] =
      some [("f".toList, ⟨"a:11".toList, 420⟩)] ∧
    containsSeg
      (oldImagePattern ⟨"a".toList, "1".toList, "11".toList, "f".toList, "docker".toList⟩)
      "a:11".toList = true ∧
    ApplyUpdate ⟨"a".toList, "1".toList, "11".toList, "f".toList, "docker".toList⟩
        [("f".toList, ⟨"a:11".toList, 420⟩)] =
      some [("f".toList, ⟨"a:111".toList, 420⟩)] := by decide

/-- C3 witness: after applying `postgres 15 → 16` to the Scenario A
file, a second identical apply is a no-op. -/
theorem claim_C3_witness :
    ApplyUpdate ⟨"postgres".toList, "15".toList, "16".toList, "f".toList, "docker".toList⟩
        [("f".toList,
          ⟨("demo_version=\"1.0.0\"\ndocker.io/postgres:16 docker.io/redis:7 docker.io/nginx:1.25\n").toList,
            420⟩)] =
      some [("f".toList,
        ⟨("demo_version=\"1.0.0\"\ndocker.io/postgres:16 docker.io/redis:7 docker.io/nginx:1.25\n").toList,
          420⟩)] :=
  claim_C3 _
    [("f".toList,
      ⟨("demo_version=\"1.0.0\"\ndocker.io/postgres:15 docker.io/redis:7 docker.io/nginx:1.25\n").toList,
        420⟩)]
    _
    ⟨("demo_version=\"1.0.0\"\ndocker.io/postgres:16 docker.io/redis:7 docker.io/nginx:1.25\n").toList,
      420⟩
    (by decide) (by decide) (by decide) (by decide)

/-- C4 (amended).  The docker.io resolver accumulates every page's tag
names in order (each tagged with its parsed version), but returns only
`filterLatestVersion` of the accumulated list: at most one tag, an
accumulated tag with a non-empty parsed version whose canonical key is
maximal under `compareSemver`; tags lacking a parseable version are not
present in the returned list. -/
theorem claim_C4 :
    ∀ pages : List (List (List Char)),
      getDockerHubTags pages = pages.flatten.map newTag ∧
      (GetImageUpdates pages).length ≤ 1 ∧
      ∀ t ∈ GetImageUpdates pages,
        t ∈ getDockerHubTags pages ∧ t.Version ≠ [] ∧
        ∀ t' ∈ getDockerHubTags pages, t'.Version ≠ [] →
          compareSemver (canonKey t'.Version) (canonKey t.Version) ≤ 0 := by
  intro pages
  refine ⟨getDockerHubTags_flatten pages, filterLatestVersion_length _, ?_⟩
  intro t hmem
  have hsing : GetImageUpdates pages = [t] :=
    eq_singleton_of_mem_of_length_le hmem (filterLatestVersion_length _)
  obtain ⟨h1, h2, h3⟩ := filterLatestVersion_spec hsing
  exact ⟨h1, h2, h3⟩

/-- C4 counterexample: for the two-page listing
`[[latest, 1.0.0], [0.9.0]]` the returned list is the single tag
`1.0.0`, not the full accumulated three-tag list, and the unparseable
tag `latest` is not present by name in the returned list. -/
theorem claim_C4_counterexample :
    GetImageUpdates [["latest".toList, "1.0.0".toList], ["0.9.0".toList]] =
      [⟨"1.0.0".toList, "1.0.0".toList⟩] ∧
    GetImageUpdates [["latest".toList, "1.0.0".toList], ["0.9.0".toList]] ≠
      getDockerHubTags [["latest".toList, "1.0.0".toList], ["0.9.0".toList]] ∧
    ∀ t ∈ GetImageUpdates [["latest".toList, "1.0.0".toList], ["0.9.0".toList]],
      ¬ t.Name = "latest".toList := by decide

/-- C4 witness: on the two-page listing the returned tag `1.0.0` is
among the accumulated tags, parses, and dominates every parseable
accumulated tag. -/
theorem claim_C4_witness :
    (⟨"1.0.0".toList, "1.0.0".toList⟩ : Tag) ∈
      getDockerHubTags [["latest".toList, "1.0.0".toList], ["0.9.0".toList]] ∧
    ("1.0.0".toList : List Char) ≠ [] ∧
    ∀ t' ∈ getDockerHubTags [["latest".toList, "1.0.0".toList], ["0.9.0".toList]],
      t'.Version ≠ [] →
        compareSemver (canonKey t'.Version) (canonKey "1.0.0".toList) ≤ 0 :=
  (claim_C4 [["latest".toList, "1.0.0".toList], ["0.9.0".toList]]).2.2
    ⟨"1.0.0".toList, "1.0.0".toList⟩ (by decide)

/-- C5 (amended).  The scan's dependency discovery — name, current
version, file, updater tag — is a pure function of the file content:
it is identical under any two registry oracles.  (The full output is
not: `LatestVersion` is resolved over the network during the scan, see
the counterexample.) -/
theorem claim_C5 :
    ∀ (path content : List Char) (o1 o2 : Oracle),
      (scanBuildImagesFile path content o1).map depKey =
        (scanBuildImagesFile path content o2).map depKey :=
  scan_depKey_oracle_free

/-- C5 counterexample: for a fixed file content the scan output differs
between two registry states, because `scanBuildImagesFile` resolves
`LatestVersion` through the registry while scanning — the scan is not
pure with respect to its input as claimed. -/
theorem claim_C5_counterexample :
    scanBuildImagesFile "f".toList ("penpot_version=\"2.8.0\"").toList
        (fun _ => some "2.9.0".toList) ≠
      scanBuildImagesFile "f".toList ("penpot_version=\"2.8.0\"").toList
        (fun _ => some "3.0.0".toList) := by decide

/-- C6.  In the Applying phase the selected dependencies are processed
sequentially; the first `ApplyUpdate` failure yields an outcome with
`Success = false` and a message naming the failing dependency, the file
system keeps the edits applied before the failure (no rollback), and
neither commit nor push is attempted. -/
theorem claim_C6 :
    ∀ (deps : List Dependency) (selected : List (List Char)) (fs : Fs)
      (git : GitEnv) (pre post : List Dependency) (d : Dependency),
      git.currentBranchOk = true → git.createBranchOk = true →
      depsToUpdate deps selected = pre ++ d :: post →
      (∀ p ∈ pre, (lookupFs fs p.File).isSome = true) →
      lookupFs fs d.File = none →
      UpdateRepository deps selected fs git =
        ⟨false, applyFailMsg d, applyAllS pre fs, true, false, false⟩ ∧
      containsSeg d.Name (applyFailMsg d) = true :=
  fun _ _ _ _ _ _ _ h1 h2 h3 h4 h5 =>
    ⟨UpdateRepository_apply_failure h1 h2 h3 h4 h5, applyFailMsg_names⟩

/-- C6 witness (Scenario D): three selected updates where the second
apply fails (its file is missing) produce a failed outcome naming `b`,
no commit or push attempt, and the first update's edit (`a:1 → a:2`)
still on disk. -/
theorem claim_C6_witness :
    (UpdateRepository
        [⟨"a".toList, "1".toList, "2".toList, "f1".toList, "docker".toList⟩,
         ⟨"b".toList, "1".toList, "2".toList, "f2".toList, "docker".toList⟩,
         ⟨"c".toList, "1".toList, "2".toList, "f3".toList, "docker".toList⟩]
        [] [("f1".toList, ⟨"a:1".toList, 420⟩), ("f3".toList, ⟨"c:1".toList, 420⟩)]
        ⟨true, true, true, true⟩ =
      ⟨false,
        applyFailMsg ⟨"b".toList, "1".toList, "2".toList, "f2".toList, "docker".toList⟩,
        applyAllS [⟨"a".toList, "1".toList, "2".toList, "f1".toList, "docker".toList⟩]
          [("f1".toList, ⟨"a:1".toList, 420⟩), ("f3".toList, ⟨"c:1".toList, 420⟩)],
        true, false, false⟩ ∧
      containsSeg "b".toList
        (applyFailMsg ⟨"b".toList, "1".toList, "2".toList, "f2".toList, "docker".toList⟩) =
        true) ∧
    lookupFs
      (applyAllS [⟨"a".toList, "1".toList, "2".toList, "f1".toList, "docker".toList⟩]
        [("f1".toList, ⟨"a:1".toList, 420⟩), ("f3".toList, ⟨"c:1".toList, 420⟩)])
      "f1".toList = some ⟨"a:2".toList, 420⟩ :=
  ⟨claim_C6
    [⟨"a".toList, "1".toList, "2".toList, "f1".toList, "docker".toList⟩,
     ⟨"b".toList, "1".toList, "2".toList, "f2".toList, "docker".toList⟩,
     ⟨"c".toList, "1".toList, "2".toList, "f3".toList, "docker".toList⟩]
    [] [("f1".toList, ⟨"a:1".toList, 420⟩), ("f3".toList, ⟨"c:1".toList, 420⟩)]
    ⟨true, true, true, true⟩
    [⟨"a".toList, "1".toList, "2".toList, "f1".toList, "docker".toList⟩]
    [⟨"c".toList, "1".toList, "2".toList, "f3".toList, "docker".toList⟩]
    ⟨"b".toList, "1".toList, "2".toList, "f2".toList, "docker".toList⟩
    rfl rfl (by decide) (by decide) (by decide), by decide⟩

/-- C7.  When no scanned dependency has `CurrentVersion ≠
LatestVersion`, the workflow returns `Success = true` with the
nothing-to-update message, leaves the file system untouched, and
attempts neither branch creation nor commit nor push. -/
theorem claim_C7 :
    ∀ (deps : List Dependency) (selected : List (List Char)) (fs : Fs)
      (git : GitEnv),
      git.currentBranchOk = true →
      (∀ d ∈ deps, d.CurrentVersion = d.LatestVersion) →
      UpdateRepository deps selected fs git =
        ⟨true, "No dependencies need updating".toList, fs, false, false, false⟩ :=
  fun _ selected fs git h1 h2 => UpdateRepository_short_circuit selected fs git h1 h2

/-- C7 witness (Scenario C): two dependencies already at their latest
versions produce a successful nothing-to-update outcome with no side
effect. -/
theorem claim_C7_witness :
    UpdateRepository
        [⟨"a".toList, "1".toList, "1".toList, "f1".toList, "docker".toList⟩,
         ⟨"b".toList, "2".toList, "2".toList, "f2".toList, "docker".toList⟩]
        [] [("f1".toList, ⟨"a:1".toList, 420⟩)] ⟨true, true, true, true⟩ =
      ⟨true, "No dependencies need updating".toList,
        [("f1".toList, ⟨"a:1".toList, 420⟩)], false, false, false⟩ :=
  claim_C7
    [⟨"a".toList, "1".toList, "1".toList, "f1".toList, "docker".toList⟩,
     ⟨"b".toList, "2".toList, "2".toList, "f2".toList, "docker".toList⟩]
    [] [("f1".toList, ⟨"a:1".toList, 420⟩)] ⟨true, true, true, true⟩
    rfl (by decide)

/-- C8.  When registry resolution fails for every lookup, every scanned
dependency is still reported, with `LatestVersion` equal to
`CurrentVersion`, instead of aborting the scan. -/
theorem claim_C8 :
    ∀ (path content : List Char) (o : Oracle),
      (∀ s, o s = none) →
      ∀ d ∈ scanBuildImagesFile path content o,
        d.LatestVersion = d.CurrentVersion :=
  fun _ _ _ h => scan_fallback h

/-- C8 witness: scanning `penpot_version=\x222.8.0\x22` against a
registry that always fails still reports the dependency, as up to
date. -/
theorem claim_C8_witness :
    (∀ d ∈ scanBuildImagesFile "f".toList ("penpot_version=\"2.8.0\"").toList
        (fun _ => none),
      d.LatestVersion = d.CurrentVersion) ∧
    scanBuildImagesFile "f".toList ("penpot_version=\"2.8.0\"").toList
        (fun _ => none) =
      [⟨"penpot_version".toList, "2.8.0".toList, "2.8.0".toList, "f".toList,
        "docker".toList⟩] :=
  ⟨claim_C8 "f".toList ("penpot_version=\"2.8.0\"").toList (fun _ => none)
    (fun _ => rfl), by decide⟩

/-- C9.  No image reference whose tag begins with the `$` substitution
sigil is ever materialized into the returned dependency list: a scanned
dependency whose current version begins with `$` can only come from the
version-variable path, and the image regular expression cannot even
capture a tag containing `$`. -/
theorem claim_C9 :
    (∀ (path content : List Char) (o : Oracle) (d : Dependency),
      d ∈ scanBuildImagesFile path content o →
      d.CurrentVersion.head? = some '$' →
      ∃ l, l ∈ keptLines content ∧ d ∈ versionDeps path o l) ∧
    (∀ (l : List Char) (m : List Char × List Char),
      m ∈ imageLineMatches l → ∀ c ∈ m.2, ¬ c = '$') :=
  ⟨fun _ _ _ _ hd hdollar => scan_dollar_only_version_vars hd hdollar,
   fun _ _ hm => imageLineMatches_no_dollar hm⟩

/-- C9 witness: the only scanned dependency with a `$`-leading current
version in `a_version=\x22$x\x22` is the version variable itself, not an
image reference. -/
theorem claim_C9_witness :
    ∃ l, l ∈ keptLines ("a_version=\"$x\"").toList ∧
      (⟨"a_version".toList, "$x".toList, "$x".toList, "f".toList,
        "docker".toList⟩ : Dependency) ∈
        versionDeps "f".toList (fun _ => none) l :=
  claim_C9.1 "f".toList ("a_version=\"$x\"").toList (fun _ => none)
    ⟨"a_version".toList, "$x".toList, "$x".toList, "f".toList, "docker".toList⟩
    (by decide) (by decide)

/-- C10.  A successful apply on a file whose content decomposes as
`a ++ Name:CurrentVersion ++ b`, where the quoted-assignment pattern is
absent, the registry-tag pattern first occurs at the decomposition
point and does not occur in `b`, rewrites the file to
`a ++ Name:LatestVersion ++ b` — every byte outside the occurrence is
unchanged — keeps the file's permission bits, and leaves every other
file untouched. -/
theorem claim_C10 :
    ∀ (d : Dependency) (fs : Fs) (f : FileState) (a b : List Char),
      lookupFs fs d.File = some f →
      f.content = a ++ oldImagePattern d ++ b →
      containsSeg (oldPattern d) f.content = false →
      findOcc (oldImagePattern d) f.content = some a.length →
      containsSeg (oldImagePattern d) b = false →
      ApplyUpdate d fs =
        some (writeFileFs fs d.File (a ++ newImagePattern d ++ b) 420) ∧
      lookupFs (writeFileFs fs d.File (a ++ newImagePattern d ++ b) 420) d.File =
        some ⟨a ++ newImagePattern d ++ b, f.mode⟩ ∧
      ∀ q, ¬ q = d.File →
        lookupFs (writeFileFs fs d.File (a ++ newImagePattern d ++ b) 420) q =
          lookupFs fs q := by
  intro d fs f a b hlook hcontent hquote hfind hb
  rw [hcontent] at hfind
  have happly : applyContent d f.content = a ++ newImagePattern d ++ b := by
    unfold applyContent
    rw [replaceAll_of_not_contains hquote, hcontent]
    exact replaceAll_single (oldImagePattern_ne_nil d) hfind
      (findOcc_none_of_not_contains hb)
  refine ⟨?_, lookupFs_writeFileFs_self hlook _ _, fun q hq =>
    lookupFs_writeFileFs_other hq _ _⟩
  rw [ApplyUpdate_some hlook, happly]

/-- C10 witness (Scenario B): applying `postgres 15 → 16` to the
Scenario A file changes exactly the `postgres:15` occurrence, keeps the
0755 permission bits, leaves other files alone, and the `redis:7` and
`nginx:1.25` substrings (inside the unchanged suffix) are
byte-identical afterwards. -/
theorem claim_C10_witness :
    ApplyUpdate
        ⟨"postgres".toList, "15".toList, "16".toList, "f".toList, "docker".toList⟩
        [("f".toList,
          ⟨("demo_version=\"1.0.0\"\ndocker.io/").toList ++
            oldImagePattern ⟨"postgres".toList, "15".toList, "16".toList,
              "f".toList, "docker".toList⟩ ++
            (" docker.io/redis:7 docker.io/nginx:1.25\n").toList, 493⟩)] =
      some (writeFileFs
        [("f".toList,
          ⟨("demo_version=\"1.0.0\"\ndocker.io/").toList ++
            oldImagePattern ⟨"postgres".toList, "15".toList, "16".toList,
              "f".toList, "docker".toList⟩ ++
            (" docker.io/redis:7 docker.io/nginx:1.25\n").toList, 493⟩)]
        "f".toList
        (("demo_version=\"1.0.0\"\ndocker.io/").toList ++
          newImagePattern ⟨"postgres".toList, "15".toList, "16".toList,
            "f".toList, "docker".toList⟩ ++
          (" docker.io/redis:7 docker.io/nginx:1.25\n").toList) 420) ∧
    lookupFs (writeFileFs
        [("f".toList,
          ⟨("demo_version=\"1.0.0\"\ndocker.io/").toList ++
            oldImagePattern ⟨"postgres".toList, "15".toList, "16".toList,
              "f".toList, "docker".toList⟩ ++
            (" docker.io/redis:7 docker.io/nginx:1.25\n").toList, 493⟩)]
        "f".toList
        (("demo_version=\"1.0.0\"\ndocker.io/").toList ++
          newImagePattern ⟨"postgres".toList, "15".toList, "16".toList,
            "f".toList, "docker".toList⟩ ++
          (" docker.io/redis:7 docker.io/nginx:1.25\n").toList) 420) "f".toList =
      some ⟨("demo_version=\"1.0.0\"\ndocker.io/").toList ++
          newImagePattern ⟨"postgres".toList, "15".toList, "16".toList,
            "f".toList, "docker".toList⟩ ++
          (" docker.io/redis:7 docker.io/nginx:1.25\n").toList, 493⟩ ∧
    (∀ q, ¬ q = ("f".toList : List Char) →
      lookupFs (writeFileFs
        [("f".toList,
          ⟨("demo_version=\"1.0.0\"\ndocker.io/").toList ++
            oldImagePattern ⟨"postgres".toList, "15".toList, "16".toList,
              "f".toList, "docker".toList⟩ ++
            (" docker.io/redis:7 docker.io/nginx:1.25\n").toList, 493⟩)]
        "f".toList
        (("demo_version=\"1.0.0\"\ndocker.io/").toList ++
          newImagePattern ⟨"postgres".toList, "15".toList, "16".toList,
            "f".toList, "docker".toList⟩ ++
          (" docker.io/redis:7 docker.io/nginx:1.25\n").toList) 420) q =
        lookupFs
          [("f".toList,
            ⟨("demo_version=\"1.0.0\"\ndocker.io/").toList ++
              oldImagePattern ⟨"postgres".toList, "15".toList, "16".toList,
                "f".toList, "docker".toList⟩ ++
              (" docker.io/redis:7 docker.io/nginx:1.25\n").toList, 493⟩)] q) ∧
    containsSeg "redis:7".toList
      (" docker.io/redis:7 docker.io/nginx:1.25\n").toList = true ∧
    containsSeg "nginx:1.25".toList
      (" docker.io/redis:7 docker.io/nginx:1.25\n").toList = true := by
  have h := claim_C10
    ⟨"postgres".toList, "15".toList, "16".toList, "f".toList, "docker".toList⟩
    [("f".toList,
      ⟨("demo_version=\"1.0.0\"\ndocker.io/").toList ++
        oldImagePattern ⟨"postgres".toList, "15".toList, "16".toList,
          "f".toList, "docker".toList⟩ ++
        (" docker.io/redis:7 docker.io/nginx:1.25\n").toList, 493⟩)]
    ⟨("demo_version=\"1.0.0\"\ndocker.io/").toList ++
      oldImagePattern ⟨"postgres".toList, "15".toList, "16".toList,
        "f".toList, "docker".toList⟩ ++
      (" docker.io/redis:7 docker.io/nginx:1.25\n").toList, 493⟩
    ("demo_version=\"1.0.0\"\ndocker.io/").toList
    (" docker.io/redis:7 docker.io/nginx:1.25\n").toList
    (by decide) rfl (by decide) (by decide) (by decide)
  exact ⟨h.1, h.2.1, h.2.2, by decide, by decide⟩

end Updater
